import Mathlib

/-!
Verification of the DevForge graph store and hybrid retrieval fusion engine.

This file gives a shallow embedding of the core of the repository:

* `graph_db/models.py`   — `GraphNode`, `GraphRelationship`;
* `graph_db/graph_db.py` — class `GraphDatabase` (NetworkX `MultiDiGraph` plus an
  `_edge_id_map`): node/edge CRUD, `save`/`load`, `traverse`,
  `compute_graph_scores`;
* `graph_db/graph.py`    — class `GraphDB` (the second store variant);
* `app/service.py`       — `HybridRetrievalService`: `delete_node` and the
  hybrid fusion block of `hybrid_search` (the fusion consumes a candidate list,
  so it is modelled as a function of the store and that list).

Python `float` is modelled as `ℚ` (plus an `inf` constructor where the code
uses `float('inf')`).  Python dicts are modelled as insertion-ordered
association lists with in-place overwrite (`dset`).  NetworkX `MultiDiGraph`
is modelled as a node association list plus an edge-record list; `add_node`
on an existing id overwrites its attributes, and `add_edge` silently adds
missing endpoints, as NetworkX does.  Functions that can raise return
`Except PyErr`.  Loops are written as fuel-indexed recursions; every wrapper
supplies fuel that provably dominates the loop's termination measure.
-/

set_option maxHeartbeats 1600000

namespace DevForge

/-- A JSON-representable primitive metadata value. -/
inductive PrimVal where
  | pstr (s : String)
  | pnum (q : ℚ)
  | pbool (b : Bool)
deriving DecidableEq

/-- Python metadata dict: an open string-keyed bag of primitive values. -/
abbrev Metadata := List (String × PrimVal)

/-- Python exception surfaced by the `GraphDatabase` embedding. -/
inductive PyErr where
  | keyError
deriving DecidableEq

/-- Exceptions of the `GraphDB` variant in `graph.py`. -/
inductive GErr where
  | nodeNotFound
  | edgeNotFound
  | duplicateNode
  | duplicateEdge
deriving DecidableEq

/-- Lookup in a Python-dict model (first matching key). -/
def dlookup {β : Type} (m : List (String × β)) (k : String) : Option β :=
  (m.find? (fun p => p.1 == k)).map (fun p => p.2)

/-- Python dict assignment: overwrite in place if the key exists, else append.
Insertion order is preserved, as for a Python dict. -/
def dset {β : Type} (k : String) (v : β) (m : List (String × β)) : List (String × β) :=
  if m.any (fun p => p.1 == k) then
    m.map (fun p => if p.1 == k then (k, v) else p)
  else
    m ++ [(k, v)]

theorem dlookup_nil {β : Type} (k : String) : dlookup ([] : List (String × β)) k = none := rfl

theorem dlookup_cons {β : Type} (p : String × β) (t : List (String × β)) (k : String) :
    dlookup (p :: t) k = if p.1 = k then some p.2 else dlookup t k := by
  by_cases h : p.1 = k
  · rw [if_pos h]
    unfold dlookup
    rw [List.find?_cons_of_pos _ (by simpa using h)]
    rfl
  · rw [if_neg h]
    unfold dlookup
    rw [List.find?_cons_of_neg _ (by simpa using h)]

theorem dlookup_map_overwrite_self {β : Type} (k : String) (v : β) (m : List (String × β)) :
    dlookup (m.map (fun p => if p.1 == k then (k, v) else p)) k
      = (dlookup m k).map (fun _ => v) := by
  induction m with
  | nil => rfl
  | cons p t ih =>
    rw [List.map_cons]
    by_cases hp : p.1 = k
    · rw [if_pos (by simpa using hp), dlookup_cons, dlookup_cons, if_pos rfl, if_pos hp]
      rfl
    · rw [if_neg (by simpa using hp), dlookup_cons, dlookup_cons, if_neg hp, if_neg hp, ih]

theorem dlookup_map_overwrite_ne {β : Type} {k k' : String} (h : k' ≠ k) (v : β)
    (m : List (String × β)) :
    dlookup (m.map (fun p => if p.1 == k then (k, v) else p)) k' = dlookup m k' := by
  induction m with
  | nil => rfl
  | cons p t ih =>
    rw [List.map_cons]
    by_cases hp : p.1 = k
    · rw [if_pos (by simpa using hp), dlookup_cons, dlookup_cons,
        if_neg (Ne.symm h), if_neg (by rw [hp]; exact Ne.symm h), ih]
    · rw [if_neg (by simpa using hp), dlookup_cons, dlookup_cons, ih]

theorem dlookup_append_single_self {β : Type} (k : String) (v : β) (m : List (String × β)) :
    (∀ p ∈ m, p.1 ≠ k) → dlookup (m ++ [(k, v)]) k = some v := by
  intro hall
  induction m with
  | nil => simp [dlookup_cons]
  | cons p t ih =>
    rw [List.cons_append, dlookup_cons, if_neg (hall p (by simp))]
    exact ih (fun q hq => hall q (by simp [hq]))

theorem dlookup_append_single_ne {β : Type} {k k' : String} (h : k' ≠ k) (v : β)
    (m : List (String × β)) : dlookup (m ++ [(k, v)]) k' = dlookup m k' := by
  induction m with
  | nil => simp [dlookup_cons, Ne.symm h, dlookup]
  | cons p t ih =>
    rw [List.cons_append, dlookup_cons, dlookup_cons, ih]

theorem exists_dlookup_of_any {β : Type} {k : String} {m : List (String × β)}
    (h : (m.any (fun p => p.1 == k)) = true) : ∃ w, dlookup m k = some w := by
  induction m with
  | nil => simp at h
  | cons p t ih =>
    by_cases hp : p.1 = k
    · exact ⟨p.2, by rw [dlookup_cons, if_pos hp]⟩
    · simp only [List.any_cons, Bool.or_eq_true, beq_iff_eq] at h
      obtain ⟨w, hw⟩ := ih (by simpa using h.resolve_left hp)
      exact ⟨w, by rw [dlookup_cons, if_neg hp]; exact hw⟩

theorem not_any_forall {β : Type} {k : String} {m : List (String × β)}
    (h : ¬(m.any (fun p => p.1 == k)) = true) : ∀ p ∈ m, p.1 ≠ k := by
  intro p hp
  simp only [List.any_eq_true, beq_iff_eq, not_exists, not_and] at h
  exact h p hp

theorem dlookup_dset_self {β : Type} (k : String) (v : β) (m : List (String × β)) :
    dlookup (dset k v m) k = some v := by
  unfold dset
  split
  next h =>
    obtain ⟨w, hw⟩ := exists_dlookup_of_any h
    rw [dlookup_map_overwrite_self, hw]
    rfl
  next h =>
    exact dlookup_append_single_self k v m (not_any_forall h)

theorem dlookup_dset_ne {β : Type} {k k' : String} (h : k' ≠ k) (v : β)
    (m : List (String × β)) : dlookup (dset k v m) k' = dlookup m k' := by
  unfold dset
  split
  · exact dlookup_map_overwrite_ne h v m
  · exact dlookup_append_single_ne h v m

/-!  Data model (`graph_db/models.py`). -/

/-- `GraphNode` from `graph_db/models.py`: id, text, metadata, optional embedding.
The constructor logic (`node_id or uuid4`, `metadata or {}`) lives in `mkGraphNode`. -/
structure GraphNode where
  id : String
  text : String
  metadata : Metadata
  embedding : Option (List ℚ)
deriving DecidableEq

/-- `GraphRelationship` from `graph_db/models.py`. -/
structure GraphRelationship where
  id : String
  source : String
  target : String
  rtype : String
  weight : ℚ
deriving DecidableEq

/-- `GraphNode.__init__`: `self.id = node_id or str(uuid.uuid4())` (a falsy id —
`None` or the empty string — is replaced by the freshly generated uuid `gen`),
`self.metadata = metadata or {}` (both `None` and `{}` give `{}`). -/
def mkGraphNode (gen : String) (text : String) (metadata : Option Metadata)
    (embedding : Option (List ℚ)) (nodeId : Option String) : GraphNode :=
  { id := match nodeId with
          | some i => if i = "" then gen else i
          | none => gen
    text := text
    metadata := metadata.getD []
    embedding := embedding }

/-- `GraphRelationship.__init__`: `self.id = edge_id or str(uuid.uuid4())`. -/
def mkGraphRelationship (gen : String) (source target rtype : String) (weight : ℚ)
    (edgeId : Option String) : GraphRelationship :=
  { id := match edgeId with
          | some i => if i = "" then gen else i
          | none => gen
    source := source
    target := target
    rtype := rtype
    weight := weight }

/-!  The `GraphDatabase` state (`graph_db/graph_db.py`).

The NetworkX `MultiDiGraph` is a node association list (attribute dicts with the
keys `text` / `metadata` / `embedding`; `none` in `NodeAttrs.text` or
`.metadata` means the key is absent, which happens only for endpoint nodes
auto-added by `add_edge`) plus a list of keyed edge records. `_edge_id_map`
maps an edge id to its `(source, target, key)` triple. -/

/-- NetworkX node attribute dict for this application. -/
structure NodeAttrs where
  text : Option String
  metadata : Option Metadata
  embedding : Option (List ℚ)
deriving DecidableEq

/-- One parallel edge of the `MultiDiGraph`, with its NetworkX key and its
attribute dict `{id, type, weight}`. -/
structure EdgeRec where
  source : String
  target : String
  key : Nat
  id : String
  rtype : String
  weight : ℚ
deriving DecidableEq

/-- The in-memory state of a `GraphDatabase` (the `db_path` / `auto_persist`
configuration and the on-disk side effects are outside the model). -/
structure GDB where
  nodes : List (String × NodeAttrs)
  edges : List EdgeRec
  edgeIdMap : List (String × (String × String × Nat))
deriving DecidableEq

/-- The empty store. -/
def GDB.empty : GDB := ⟨[], [], []⟩

/-- The node-id set of the graph (`self.graph.nodes`). -/
def nodeIds (g : GDB) : List String := g.nodes.map (fun p => p.1)

/-- NetworkX `add_node(id, **attrs)`: inserts the node, or overwrites the
given attribute keys when the id already exists. -/
def addNode (nid : String) (a : NodeAttrs) (g : GDB) : GDB :=
  { g with nodes := dset nid a g.nodes }

/-- NetworkX `add_edge` silently adds a missing endpoint as a node with no
attributes. -/
def ensureNode (nid : String) (g : GDB) : GDB :=
  if nid ∈ nodeIds g then g
  else { g with nodes := g.nodes ++ [(nid, ⟨none, none, none⟩)] }

/-- NetworkX `add_edge(s, t, id, type, weight)` followed by the
`_edge_id_map[edge.id] = (s, t, key)` bookkeeping of `graph_db.py`.
The fresh parallel-edge key is the number of existing `s → t` edges. -/
def addEdge (eid s t ty : String) (w : ℚ) (g : GDB) : GDB :=
  let g1 := ensureNode t (ensureNode s g)
  let key := (g1.edges.filter (fun e => e.source == s && e.target == t)).length
  { g1 with
    edges := g1.edges ++ [⟨s, t, key, eid, ty, w⟩]
    edgeIdMap := dset eid (s, t, key) g1.edgeIdMap }

/-- `GraphDatabase.create_node(text, metadata, embedding, node_id)`.
`gen` is the uuid that `GraphNode.__init__` would draw.  Note: the method
performs no duplicate-id check — `add_node` simply overwrites the attributes
of an existing node. -/
def create_node (g : GDB) (gen : String) (text : String) (metadata : Option Metadata)
    (embedding : Option (List ℚ)) (nodeId : Option String) : GraphNode × GDB :=
  let node := mkGraphNode gen text metadata embedding nodeId
  (node, addNode node.id ⟨some node.text, some node.metadata, node.embedding⟩ g)

/-- `GraphDatabase.get_node(node_id)`: `None` when absent; otherwise reads
`node_data["text"]` and `node_data["metadata"]` (raising `KeyError` when the
key is missing, as for an endpoint auto-added by `add_edge`) and
`node_data.get("embedding")`. -/
def get_node (g : GDB) (nid : String) : Except PyErr (Option GraphNode) :=
  match dlookup g.nodes nid with
  | none => .ok none
  | some a =>
    match a.text with
    | none => .error .keyError
    | some t =>
      match a.metadata with
      | none => .error .keyError
      | some m => .ok (some ⟨nid, t, m, a.embedding⟩)

/-- `GraphDatabase.delete_node(node_id)`: `False` when absent; otherwise drops
every `_edge_id_map` entry whose source or target is the node and removes the
node (NetworkX `remove_node` cascades over all incident edges). -/
def delete_node (g : GDB) (nid : String) : Bool × GDB :=
  if nid ∈ nodeIds g then
    (true,
      { nodes := g.nodes.filter (fun p => ¬(p.1 = nid))
        edges := g.edges.filter (fun e => ¬(e.source = nid ∨ e.target = nid))
        edgeIdMap := g.edgeIdMap.filter (fun p => ¬(p.2.1 = nid ∨ p.2.2.1 = nid)) })
  else (false, g)

/-- `GraphDatabase.create_edge`: `None` when an endpoint is missing, else a
fresh `GraphRelationship` (uuid `gen`) is inserted. -/
def create_edge (g : GDB) (gen : String) (sourceId targetId relType : String)
    (weight : ℚ) : Option GraphRelationship × GDB :=
  if sourceId ∈ nodeIds g ∧ targetId ∈ nodeIds g then
    let edge := mkGraphRelationship gen sourceId targetId relType weight none
    (some edge, addEdge edge.id sourceId targetId edge.rtype edge.weight g)
  else (none, g)

/-- `GraphDatabase.get_edge(edge_id)`: `None` when the id is not in
`_edge_id_map`; otherwise reads `self.graph[source][target][key]`, raising
`KeyError` if that edge is gone from the graph. -/
def get_edge (g : GDB) (eid : String) : Except PyErr (Option GraphRelationship) :=
  match dlookup g.edgeIdMap eid with
  | none => .ok none
  | some (s, t, key) =>
    match g.edges.find? (fun e => e.source == s && e.target == t && e.key == key) with
    | none => .error .keyError
    | some e => .ok (some ⟨e.id, s, t, e.rtype, e.weight⟩)

/-- NetworkX `out_degree`: the number of outgoing parallel edges. -/
def outDeg (g : GDB) (nid : String) : Nat :=
  (g.edges.filter (fun e => e.source == nid)).length

/-- NetworkX `in_degree`: the number of incoming parallel edges. -/
def inDeg (g : GDB) (nid : String) : Nat :=
  (g.edges.filter (fun e => e.target == nid)).length

/-!  `HybridRetrievalService.delete_node` (`app/service.py`).  The vector-store
deletion is an external collaborator and is outside the model. -/

/-- Response model of the delete-node endpoint. -/
structure NodeDeleteResponse where
  status : String
  id : String
  edges_removed : Nat
deriving DecidableEq

/-- `HybridRetrievalService.delete_node`: counts `out_degree + in_degree`
before deleting, then calls `GraphDatabase.delete_node`; `None` when the node
does not exist. -/
def serviceDeleteNode (g : GDB) (nid : String) : Option NodeDeleteResponse × GDB :=
  let edgesRemoved := if nid ∈ nodeIds g then outDeg g nid + inDeg g nid else 0
  match delete_node g nid with
  | (false, g1) => (none, g1)
  | (true, g1) => (some ⟨"deleted", nid, edgesRemoved⟩, g1)

/-!  Persistence (`GraphDatabase.save` / `GraphDatabase.load`).

The JSON file contents are modelled structurally: a snapshot is the value
`{"nodes": [node.to_dict()...], "edges": [edge.to_dict()...]}` that
`json.dump` writes and `json.load` reads back; `to_dict`/`from_dict` are the
identity between that value and the `GraphNode`/`GraphRelationship` records. -/

/-- A snapshot file: the two ordered collections that `save` writes. -/
structure Snapshot where
  nodes : List GraphNode
  edges : List GraphRelationship
deriving DecidableEq

/-- The node serialization loop of `GraphDatabase.save`: each node is read via
`node_data["text"]` and `node_data["metadata"]` (a `KeyError` when a node
lacks them, i.e. was auto-added by `add_edge`) plus
`node_data.get("embedding")`, in iteration order. -/
def saveNodes : List (String × NodeAttrs) → Except PyErr (List GraphNode)
  | [] => .ok []
  | p :: t =>
    match p.2.text, p.2.metadata with
    | some tx, some m => do
        let rest ← saveNodes t
        .ok (⟨p.1, tx, m, p.2.embedding⟩ :: rest)
    | _, _ => .error .keyError

/-- The edge serialization of `save`: `GraphRelationship(...).to_dict()` built
from the edge's attribute dict (the NetworkX key is not stored). -/
def edgeToDict (e : EdgeRec) : GraphRelationship :=
  ⟨e.id, e.source, e.target, e.rtype, e.weight⟩

/-- `GraphDatabase.save`: nodes then edges, each serialized by `to_dict`. -/
def save (g : GDB) : Except PyErr Snapshot := do
  let ns ← saveNodes g.nodes
  Except.ok ⟨ns, g.edges.map edgeToDict⟩

/-- One iteration of the node-loading loop of `GraphDatabase.load`:
`GraphNode.from_dict` (`gen p.1` is the uuid4 draw used when the stored id is
falsy) followed by `add_node`. -/
def loadNodeStep (gen : Nat → String) (g : GDB) (p : Nat × GraphNode) : GDB :=
  let node := mkGraphNode (gen p.1) p.2.text (some p.2.metadata) p.2.embedding (some p.2.id)
  addNode node.id ⟨some node.text, some node.metadata, node.embedding⟩ g

/-- One iteration of the edge-loading loop of `GraphDatabase.load`:
`GraphRelationship.from_dict` followed by `add_edge` and the
`_edge_id_map` update. -/
def loadEdgeStep (gen : Nat → String) (off : Nat) (g : GDB) (p : Nat × GraphRelationship) :
    GDB :=
  let eid := if p.2.id = "" then gen (off + p.1) else p.2.id
  addEdge eid p.2.source p.2.target p.2.rtype p.2.weight g

/-- `GraphDatabase.load`: clears the store, re-adds every node, then re-adds
every edge (NetworkX silently creating any missing endpoint). -/
def load (gen : Nat → String) (snap : Snapshot) : GDB :=
  (snap.edges.enum).foldl (loadEdgeStep gen snap.nodes.length)
    ((snap.nodes.enum).foldl (loadNodeStep gen) GDB.empty)

/-!  The `GraphDB` variant (`graph_db/graph.py`): nodes carry a free property
bag (with the `label` entry mixed in); edges carry a `relation` property. -/

/-- A `graph.py` node property bag (the `label` key included). -/
structure GPyNode where
  id : String
  props : Metadata
deriving DecidableEq

/-- A `graph.py` edge: NetworkX key plus the `relation` property bag. -/
structure GPyEdge where
  source : String
  target : String
  key : Nat
  relation : String
deriving DecidableEq

/-- The `GraphDB` state of `graph.py`. -/
structure GPy where
  nodes : List GPyNode
  edges : List GPyEdge
deriving DecidableEq

/-- The node-id set of a `GraphDB`. -/
def gpyNodeIds (g : GPy) : List String := g.nodes.map (fun n => n.id)

/-- `GraphDB.create_node(node_id, label, properties)`: raises
`DuplicateNodeError` when the node already exists, else inserts the node with
`{'label': label, **properties}`. -/
def gpyCreateNode (g : GPy) (nodeId label : String) (properties : Metadata) :
    Except GErr (GPyNode × GPy) :=
  if nodeId ∈ gpyNodeIds g then
    .error .duplicateNode
  else
    let node : GPyNode := ⟨nodeId, ("label", .pstr label) :: properties⟩
    .ok (node, { g with nodes := g.nodes ++ [node] })

/-!  Fuel accounting for the breadth-first loops.  Every loop below is written
as a fuel-indexed structural recursion; the wrapper supplies
`(2·|edges| + 1) ^ (depth + 1)` fuel, which dominates the measure
`Σ B^(depth+1-hop)` over the queue, so the fuel never runs out (each proof
carries `qMeasure ≤ fuel` as an invariant and the zero-fuel case is shown
unreachable). -/

/-- The termination measure of a hop-annotated queue. -/
def qMeasure (B depth : Nat) (ds : List Nat) : Nat :=
  (ds.map (fun d => B ^ (depth + 1 - d))).sum

theorem qMeasure_nil (B depth : Nat) : qMeasure B depth [] = 0 := rfl

theorem qMeasure_cons (B depth d : Nat) (ds : List Nat) :
    qMeasure B depth (d :: ds) = B ^ (depth + 1 - d) + qMeasure B depth ds := by
  simp [qMeasure]

theorem qMeasure_append (B depth : Nat) (l l' : List Nat) :
    qMeasure B depth (l ++ l') = qMeasure B depth l + qMeasure B depth l' := by
  simp [qMeasure]

theorem qMeasure_tail_lt {B : Nat} (hB : 1 ≤ B) (depth d : Nat) (ds : List Nat) :
    qMeasure B depth ds < qMeasure B depth (d :: ds) := by
  rw [qMeasure_cons]
  have : 0 < B ^ (depth + 1 - d) := Nat.pos_pow_of_pos _ hB
  omega

theorem qMeasure_const {B depth d : Nat} :
    ∀ {hs : List Nat}, (∀ x ∈ hs, x = d) →
      qMeasure B depth hs = hs.length * B ^ (depth + 1 - d) := by
  intro hs
  induction hs with
  | nil => intro _; simp [qMeasure]
  | cons x t ih =>
    intro h
    rw [qMeasure_cons, h x (by simp), ih (fun y hy => h y (by simp [hy]))]
    simp [List.length_cons]
    ring

theorem qMeasure_expand_lt {B depth d : Nat} (hB1 : 1 ≤ B) (hd : d < depth)
    {hs : List Nat} (hall : ∀ x ∈ hs, x = d + 1) (hlen : hs.length < B)
    (rest : List Nat) :
    qMeasure B depth (rest ++ hs) < qMeasure B depth (d :: rest) := by
  rw [qMeasure_append, qMeasure_cons, qMeasure_const hall]
  have hexp : depth + 1 - d = (depth - d) + 1 := by omega
  have hexp2 : depth + 1 - (d + 1) = depth - d := by omega
  rw [hexp, hexp2, pow_succ]
  have hpos : 0 < B ^ (depth - d) := Nat.pos_pow_of_pos _ hB1
  have : hs.length * B ^ (depth - d) < B ^ (depth - d) * B := by
    rw [Nat.mul_comm (hs.length)]
    exact Nat.mul_lt_mul_of_le_of_lt (Nat.le_refl _) hlen hpos
  omega

/-!  `GraphDatabase.traverse` (`graph_db/graph_db.py`). -/

/-- The distinct undirected neighbors of a node:
`set(graph.successors(n)) | set(graph.predecessors(n))`. -/
def nbrs (g : GDB) (n : String) : List String :=
  ((g.edges.filter (fun e => e.source == n)).map (fun e => e.target) ++
   (g.edges.filter (fun e => e.target == n)).map (fun e => e.source)).dedup

/-- The BFS loop of `GraphDatabase.traverse`: pop, skip if visited, record the
node, and when below `depth` enqueue every unvisited neighbor one hop further. -/
def traverseLoop (g : GDB) (depth : Nat) :
    Nat → List (String × Nat) → List String → List String → List String
  | _, [], _, result => result
  | 0, _ :: _, _, result => result
  | fuel + 1, (n, d) :: rest, visited, result =>
    if n ∈ visited then traverseLoop g depth fuel rest visited result
    else
      if d < depth then
        traverseLoop g depth fuel
          (rest ++ ((nbrs g n).filter (fun m => ¬(m ∈ visited ++ [n]))).map
            (fun m => (m, d + 1)))
          (visited ++ [n]) (result ++ [n])
      else traverseLoop g depth fuel rest (visited ++ [n]) (result ++ [n])

/-- `GraphDatabase.traverse(start_id, depth)`: returns `[]` when the start is
absent (not an error), else runs the BFS. -/
def traverse (g : GDB) (startId : String) (depth : Nat) : List String :=
  if startId ∈ nodeIds g then
    traverseLoop g depth ((2 * g.edges.length + 1) ^ (depth + 1)) [(startId, 0)] [] []
  else []

/-!  `GraphDB.traverse` (`graph_db/graph.py`). -/

/-- The `direction` argument of the `graph.py` traversal functions. -/
inductive Dir where
  | dout
  | din
  | dboth
deriving DecidableEq

/-- `graph.py` successors: distinct out-neighbors. -/
def gpySucc (g : GPy) (n : String) : List String :=
  ((g.edges.filter (fun e => e.source == n)).map (fun e => e.target)).dedup

/-- `graph.py` predecessors: distinct in-neighbors. -/
def gpyPred (g : GPy) (n : String) : List String :=
  ((g.edges.filter (fun e => e.target == n)).map (fun e => e.source)).dedup

/-- The `neighbors` list built by `GraphDB.traverse` for one node. -/
def gpyNeighbors (g : GPy) (dir : Dir) (n : String) : List String :=
  (if dir = .dout ∨ dir = .dboth then gpySucc g n else []) ++
  (if dir = .din ∨ dir = .dboth then gpyPred g n else [])

/-- An edge record collected by `GraphDB.traverse`. -/
structure GPyEdgeOut where
  src : String
  tgt : String
  key : Nat
  relation : String
deriving DecidableEq

/-- The edges collected for one `(current, neighbor)` pair (the `has_edge`
guard is subsumed by an empty filter). -/
def gpyCollect (g : GPy) (dir : Dir) (current neighbor : String) : List GPyEdgeOut :=
  (if dir = .dout ∨ dir = .dboth then
    (g.edges.filter (fun e => e.source == current && e.target == neighbor)).map
      (fun e => ⟨current, neighbor, e.key, e.relation⟩)
   else []) ++
  (if dir = .din ∨ dir = .dboth then
    (g.edges.filter (fun e => e.source == neighbor && e.target == current)).map
      (fun e => ⟨neighbor, current, e.key, e.relation⟩)
   else [])

/-- The BFS loop of `GraphDB.traverse`: pop, skip when already visited or past
`depth`, visit, and when below `depth` enqueue every neighbor (unconditionally)
while collecting the connecting parallel edges. -/
def gpyTraverseLoop (g : GPy) (depth : Nat) (dir : Dir) :
    Nat → List (String × Nat) → List String → List GPyEdgeOut →
      (List String × List GPyEdgeOut)
  | _, [], vis, ves => (vis, ves)
  | 0, _ :: _, vis, ves => (vis, ves)
  | fuel + 1, (n, d) :: rest, vis, ves =>
    if n ∈ vis ∨ depth < d then gpyTraverseLoop g depth dir fuel rest vis ves
    else
      if d < depth then
        gpyTraverseLoop g depth dir fuel
          (rest ++ (gpyNeighbors g dir n).map (fun m => (m, d + 1)))
          (vis ++ [n])
          (ves ++ (gpyNeighbors g dir n).flatMap (gpyCollect g dir n))
      else gpyTraverseLoop g depth dir fuel rest (vis ++ [n]) ves

/-- `GraphDB.get_node`: raises `NodeNotFoundError` when absent. -/
def gpyGetNode (g : GPy) (nid : String) : Except GErr GPyNode :=
  match g.nodes.find? (fun n => n.id == nid) with
  | none => .error .nodeNotFound
  | some n => .ok n

/-- The dictionary returned by `GraphDB.traverse`. -/
structure GPyTravResult where
  nodes : List GPyNode
  edges : List GPyEdgeOut
  depth : Nat
  startNode : String
deriving DecidableEq

/-- `GraphDB.traverse(start_node, depth, direction)`: raises
`NodeNotFoundError` when the start node is absent, else runs the BFS and
resolves every visited node through `get_node`. -/
def gpyTraverse (g : GPy) (startNode : String) (depth : Nat) (dir : Dir) :
    Except GErr GPyTravResult :=
  if startNode ∈ gpyNodeIds g then
    let r := gpyTraverseLoop g depth dir
      ((2 * g.edges.length + 1) ^ (depth + 1)) [(startNode, 0)] [] []
    do
      let ns ← r.1.mapM (gpyGetNode g)
      .ok ⟨ns, r.2, depth, startNode⟩
  else .error .nodeNotFound

/-!  Well-formedness of a `GraphDatabase` state.  Every state reachable through
the class API satisfies it: node attributes are always written by
`create_node`/`load`, `create_edge` checks both endpoints (and NetworkX keeps
endpoints in the node set in any case), ids are uuid4 strings (nonempty,
distinct), and `_edge_id_map` mirrors the edge set. -/

/-- API-reachable states of `GraphDatabase`. -/
def Wf (g : GDB) : Prop :=
  (g.nodes.map (fun p => p.1)).Nodup ∧
  (∀ p ∈ g.nodes, p.1 ≠ "" ∧ p.2.text ≠ none ∧ p.2.metadata ≠ none) ∧
  (∀ e ∈ g.edges, e.id ≠ "" ∧ e.source ∈ nodeIds g ∧ e.target ∈ nodeIds g) ∧
  (g.edges.map (fun e => e.id)).Nodup ∧
  g.edgeIdMap = g.edges.map (fun e => (e.id, (e.source, e.target, e.key)))

instance (g : GDB) : Decidable (Wf g) := by
  unfold Wf
  infer_instance

/-!  Key-set lemmas for `dset`. -/

theorem any_keys_iff {β : Type} (k : String) (m : List (String × β)) :
    (m.any (fun p => p.1 == k)) = true ↔ k ∈ m.map (fun p => p.1) := by
  simp [List.any_eq_true, List.mem_map, beq_iff_eq]

theorem dkeys_dset_of_mem {β : Type} {k : String} {m : List (String × β)}
    (h : k ∈ m.map (fun p => p.1)) (v : β) :
    (dset k v m).map (fun p => p.1) = m.map (fun p => p.1) := by
  unfold dset
  rw [if_pos ((any_keys_iff k m).mpr h), List.map_map]
  apply List.map_congr_left
  intro p _
  by_cases hp : p.1 = k
  · simp [hp]
  · simp [hp]

theorem dkeys_dset_of_not_mem {β : Type} {k : String} {m : List (String × β)}
    (h : k ∉ m.map (fun p => p.1)) (v : β) :
    (dset k v m).map (fun p => p.1) = m.map (fun p => p.1) ++ [k] := by
  unfold dset
  rw [if_neg (fun hc => h ((any_keys_iff k m).mp hc))]
  simp

/-!  Lemmas about `ensureNode`, `addEdge` and the loading folds. -/

theorem dlookup_append_left {β : Type} {m : List (String × β)} {k : String} {v : β}
    (h : dlookup m k = some v) (m' : List (String × β)) :
    dlookup (m ++ m') k = some v := by
  unfold dlookup at h ⊢
  rw [List.find?_append]
  cases hf : m.find? (fun p => p.1 == k) with
  | none => rw [hf] at h; exact absurd h (by simp)
  | some p => rw [hf] at h; simp [Option.or, hf, h]

theorem dlookup_some_mem_keys {β : Type} {m : List (String × β)} {k : String} {v : β}
    (h : dlookup m k = some v) : k ∈ m.map (fun p => p.1) := by
  induction m with
  | nil => exact absurd h (by simp [dlookup])
  | cons p t ih =>
    rw [dlookup_cons] at h
    by_cases hp : p.1 = k
    · simp [List.map_cons, hp]
    · rw [if_neg hp] at h
      simp [List.map_cons, ih h]

theorem ensureNode_of_mem {g : GDB} {y : String} (h : y ∈ nodeIds g) :
    ensureNode y g = g := by
  unfold ensureNode
  rw [if_pos h]

theorem dlookup_ensureNode_preserve {g : GDB} {x : String} {v : NodeAttrs}
    (h : dlookup g.nodes x = some v) (y : String) :
    dlookup (ensureNode y g).nodes x = some v := by
  unfold ensureNode
  split
  · exact h
  · exact dlookup_append_left h _

theorem dlookup_ensureNode_self_of_not_mem {g : GDB} {x : String}
    (h : x ∉ nodeIds g) :
    dlookup (ensureNode x g).nodes x = some ⟨none, none, none⟩ := by
  unfold ensureNode
  rw [if_neg h]
  exact dlookup_append_single_self x _ g.nodes
    (fun p hp hc => h (by simp [nodeIds, List.mem_map]; exact ⟨p.2, by rwa [← hc]⟩))

theorem mem_nodeIds_ensureNode {g : GDB} {x y : String} :
    x ∈ nodeIds (ensureNode y g) ↔ x ∈ nodeIds g ∨ x = y := by
  unfold ensureNode
  split
  next h =>
    constructor
    · exact Or.inl
    · rintro (hx | rfl)
      · exact hx
      · exact h
  next h =>
    simp [nodeIds, List.map_append]

theorem dlookup_addEdge_preserve {g : GDB} {x : String} {v : NodeAttrs}
    (h : dlookup g.nodes x = some v) (eid s t ty : String) (w : ℚ) :
    dlookup (addEdge eid s t ty w g).nodes x = some v := by
  unfold addEdge
  exact dlookup_ensureNode_preserve (dlookup_ensureNode_preserve h s) t

theorem mem_nodeIds_addEdge {g : GDB} {x : String} (eid s t ty : String) (w : ℚ) :
    x ∈ nodeIds (addEdge eid s t ty w g) ↔ x ∈ nodeIds g ∨ x = s ∨ x = t := by
  unfold addEdge
  show x ∈ nodeIds (ensureNode t (ensureNode s g)) ↔ _
  rw [mem_nodeIds_ensureNode, mem_nodeIds_ensureNode]
  tauto

/-- A node id absent from the store and equal to one of the two endpoints
passed to `add_edge` ends up mapped to the empty attribute dict. -/
theorem phantom_after_two_ensure {acc : GDB} {x s t : String}
    (hx : x ∉ nodeIds acc) (hst : x = s ∨ x = t) :
    dlookup (ensureNode t (ensureNode s acc)).nodes x = some ⟨none, none, none⟩ := by
  rcases hst with rfl | rfl
  · exact dlookup_ensureNode_preserve (dlookup_ensureNode_self_of_not_mem hx) _
  · by_cases hmem : x ∈ nodeIds (ensureNode s acc)
    · rcases mem_nodeIds_ensureNode.mp hmem with hc | rfl
      · exact absurd hc hx
      · exact dlookup_ensureNode_preserve (dlookup_ensureNode_self_of_not_mem hx) _
    · exact dlookup_ensureNode_self_of_not_mem hmem

/-- During the edge-loading fold, once a node id maps to the empty attribute
dict — or will be force-added by some incident edge — it maps to the empty
attribute dict in the final state. -/
theorem loadEdges_phantom (gen : Nat → String) (off : Nat) (x : String) :
    ∀ (ps : List (Nat × GraphRelationship)) (acc : GDB),
      (dlookup acc.nodes x = some ⟨none, none, none⟩ ∨
        (x ∉ nodeIds acc ∧ ∃ p ∈ ps, p.2.source = x ∨ p.2.target = x)) →
      dlookup (ps.foldl (loadEdgeStep gen off) acc).nodes x = some ⟨none, none, none⟩ := by
  intro ps
  induction ps with
  | nil =>
    intro acc h
    rcases h with h | ⟨_, ⟨p, hp, _⟩⟩
    · exact h
    · exact absurd hp (by simp)
  | cons p t ih =>
    intro acc h
    rw [List.foldl_cons]
    rcases h with h | ⟨hx, ⟨q, hq, hinc⟩⟩
    · exact ih _ (Or.inl (by
        unfold loadEdgeStep
        exact dlookup_addEdge_preserve h _ _ _ _ _))
    · rcases List.mem_cons.mp hq with rfl | hq'
      · refine ih _ (Or.inl ?_)
        unfold loadEdgeStep addEdge
        show dlookup (ensureNode q.2.target (ensureNode q.2.source acc)).nodes x = _
        exact phantom_after_two_ensure hx (hinc.imp Eq.symm Eq.symm)
      · by_cases hmem : x ∈ nodeIds (loadEdgeStep gen off acc p)
        · have hor : x ∈ nodeIds acc ∨ x = p.2.source ∨ x = p.2.target := by
            unfold loadEdgeStep at hmem
            exact (mem_nodeIds_addEdge _ _ _ _ _).mp hmem
          rcases hor with hc | hor
          · exact absurd hc hx
          · refine ih _ (Or.inl ?_)
            unfold loadEdgeStep addEdge
            show dlookup (ensureNode p.2.target (ensureNode p.2.source acc)).nodes x = _
            exact phantom_after_two_ensure hx hor
        · exact ih _ (Or.inr ⟨hmem, q, hq', hinc⟩)

theorem mem_dkeys_dset {β : Type} {y k : String} {v : β} {m : List (String × β)} :
    y ∈ (dset k v m).map (fun p => p.1) ↔ y ∈ m.map (fun p => p.1) ∨ y = k := by
  by_cases h : k ∈ m.map (fun p => p.1)
  · rw [dkeys_dset_of_mem h]
    exact ⟨Or.inl, fun hc => hc.elim id (fun hy => hy ▸ h)⟩
  · rw [dkeys_dset_of_not_mem h]
    simp

/-- Node ids absent from the store and from the node-loading input stay
absent after the node-loading fold. -/
theorem loadNodes_keys (gen : Nat → String) (x : String) :
    ∀ (ps : List (Nat × GraphNode)) (acc : GDB),
      x ∉ nodeIds acc → (∀ p ∈ ps, p.2.id ≠ "" ∧ p.2.id ≠ x) →
      x ∉ nodeIds (ps.foldl (loadNodeStep gen) acc) := by
  intro ps
  induction ps with
  | nil => intro acc hacc _; exact hacc
  | cons p t ih =>
    intro acc hacc hall
    rw [List.foldl_cons]
    refine ih _ ?_ (fun q hq => hall q (by simp [hq]))
    obtain ⟨hne, hnx⟩ := hall p (by simp)
    unfold loadNodeStep addNode mkGraphNode nodeIds
    intro hmem
    rcases mem_dkeys_dset.mp hmem with hc | hc
    · exact hacc hc
    · have hc' : x = if p.2.id = "" then gen p.1 else p.2.id := hc
      rw [if_neg hne] at hc'
      exact hnx hc'.symm

theorem exists_enum_mem {α : Type} {l : List α} {a : α} (h : a ∈ l) :
    ∃ i, (i, a) ∈ l.enum := by
  have : a ∈ (l.enum).map Prod.snd := by rw [List.enum_map_snd]; exact h
  obtain ⟨p, hp, hpa⟩ := List.mem_map.mp this
  exact ⟨p.1, by rwa [show (p.1, a) = p from by rw [← hpa]]⟩

/-- Claim C10: if a snapshot contains an edge whose endpoint id is missing
from the snapshot's node list, `GraphDatabase.load` accepts it: `add_edge`
silently adds the endpoint as a node with no `text`/`metadata`/`embedding`
attributes, and a subsequent `get_node` on that phantom id raises `KeyError`
instead of returning `None` — the every-node-has-text-and-metadata invariant
does not survive `load`. -/
theorem claim10_phantom (gen : Nat → String) (snap : Snapshot) (x : String)
    (hids : ∀ nd ∈ snap.nodes, nd.id ≠ "")
    (hx : ∀ nd ∈ snap.nodes, nd.id ≠ x)
    (hinc : ∃ e ∈ snap.edges, e.source = x ∨ e.target = x) :
    x ∈ nodeIds (load gen snap) ∧
    dlookup (load gen snap).nodes x = some ⟨none, none, none⟩ ∧
    get_node (load gen snap) x = .error .keyError := by
  have hphase1 : x ∉ nodeIds ((snap.nodes.enum).foldl (loadNodeStep gen) GDB.empty) := by
    refine loadNodes_keys gen x _ _ (by simp [nodeIds, GDB.empty]) ?_
    intro p hp
    have hmem : p.2 ∈ snap.nodes := by
      have : p.2 ∈ (snap.nodes.enum).map Prod.snd := List.mem_map_of_mem Prod.snd hp
      rwa [List.enum_map_snd] at this
    exact ⟨hids p.2 hmem, hx p.2 hmem⟩
  obtain ⟨e, he, hor⟩ := hinc
  obtain ⟨i, hie⟩ := exists_enum_mem he
  have hlook : dlookup (load gen snap).nodes x = some ⟨none, none, none⟩ := by
    unfold load
    exact loadEdges_phantom gen snap.nodes.length x _ _
      (Or.inr ⟨hphase1, ⟨(i, e), hie, hor⟩⟩)
  refine ⟨dlookup_some_mem_keys hlook, hlook, ?_⟩
  unfold get_node
  rw [hlook]

/-- Witness for C10: a snapshot holding node `a` and an edge `a → b` whose
target `b` is not in the node list. -/
theorem claim10_wit :
    (∀ nd ∈ ([⟨"a", "ta", [], none⟩] : List GraphNode), nd.id ≠ "") ∧
    (∀ nd ∈ ([⟨"a", "ta", [], none⟩] : List GraphNode), nd.id ≠ "b") ∧
    (∃ e ∈ ([⟨"e1", "a", "b", "rel", 1⟩] : List GraphRelationship),
      e.source = "b" ∨ e.target = "b") ∧
    get_node (load (fun _ => "u") ⟨[⟨"a", "ta", [], none⟩], [⟨"e1", "a", "b", "rel", 1⟩]⟩)
      "b" = .error .keyError := by
  refine ⟨by decide, by decide, ⟨⟨"e1", "a", "b", "rel", 1⟩, by simp, Or.inr rfl⟩, ?_⟩
  exact (claim10_phantom (fun _ => "u") ⟨[⟨"a", "ta", [], none⟩], [⟨"e1", "a", "b", "rel", 1⟩]⟩
    "b" (by decide) (by decide)
    ⟨⟨"e1", "a", "b", "rel", 1⟩, by simp, Or.inr rfl⟩).2.2

/-!  Claim C6: the save/load round trip. -/

/-- The serialized form of a node whose attributes are present. -/
def nodeDict (p : String × NodeAttrs) : GraphNode :=
  ⟨p.1, p.2.text.getD "", p.2.metadata.getD [], p.2.embedding⟩

/-- The claim-level view of an edge: every field except the internal NetworkX
key (which the snapshot format does not store). -/
def edgeFields (e : EdgeRec) : String × String × String × String × ℚ :=
  (e.id, e.source, e.target, e.rtype, e.weight)

/-- The same view of a serialized edge. -/
def relFields (r : GraphRelationship) : String × String × String × String × ℚ :=
  (r.id, r.source, r.target, r.rtype, r.weight)

theorem saveNodes_ok :
    ∀ (ns : List (String × NodeAttrs)),
      (∀ p ∈ ns, p.2.text ≠ none ∧ p.2.metadata ≠ none) →
      saveNodes ns = .ok (ns.map nodeDict) := by
  intro ns
  induction ns with
  | nil => intro _; rfl
  | cons p t ih =>
    intro h
    obtain ⟨htx, hmd⟩ := h p (by simp)
    obtain ⟨tx, htx'⟩ := Option.ne_none_iff_exists'.mp htx
    obtain ⟨m, hmd'⟩ := Option.ne_none_iff_exists'.mp hmd
    have ht := ih (fun q hq => h q (by simp [hq]))
    unfold saveNodes
    rw [htx', hmd', ht]
    show Except.ok (⟨p.1, tx, m, p.2.embedding⟩ :: t.map nodeDict)
      = Except.ok ((p :: t).map nodeDict)
    rw [List.map_cons]
    show _ = Except.ok ((⟨p.1, p.2.text.getD "", p.2.metadata.getD [], p.2.embedding⟩ :
      GraphNode) :: t.map nodeDict)
    rw [htx', hmd']
    rfl

theorem dset_not_mem_eq_append {β : Type} {k : String} {m : List (String × β)}
    (h : k ∉ m.map (fun p => p.1)) (v : β) : dset k v m = m ++ [(k, v)] := by
  unfold dset
  rw [if_neg (fun hc => h ((any_keys_iff k m).mp hc))]

/-- The node entry that one iteration of the node-loading loop inserts. -/
def loadedNodeEntry (p : Nat × GraphNode) : String × NodeAttrs :=
  (p.2.id, ⟨some p.2.text, some p.2.metadata, p.2.embedding⟩)

/-- The same entry as a function of the serialized node alone. -/
def nodeEntryOfDict (nd : GraphNode) : String × NodeAttrs :=
  (nd.id, ⟨some nd.text, some nd.metadata, nd.embedding⟩)

/-- The node-loading fold appends exactly the rebuilt nodes when all ids are
nonempty, fresh and distinct. -/
theorem loadNodes_rebuild (gen : Nat → String) :
    ∀ (ps : List (Nat × GraphNode)) (acc : GDB),
      (∀ p ∈ ps, p.2.id ≠ "") →
      (∀ p ∈ ps, p.2.id ∉ nodeIds acc) →
      ((ps.map (fun p => p.2.id)).Nodup) →
      ps.foldl (loadNodeStep gen) acc
        = { acc with nodes := acc.nodes ++ ps.map loadedNodeEntry } := by
  intro ps
  induction ps with
  | nil => intro acc _ _ _; simp
  | cons p t ih =>
    intro acc hne hfresh hnd
    rw [List.foldl_cons]
    have hpid : p.2.id ≠ "" := hne p (by simp)
    have hstep : loadNodeStep gen acc p
        = { acc with nodes := acc.nodes ++ [loadedNodeEntry p] } := by
      show (⟨dset (if p.2.id = "" then gen p.1 else p.2.id)
        ⟨some p.2.text, some p.2.metadata, p.2.embedding⟩ acc.nodes,
        acc.edges, acc.edgeIdMap⟩ : GDB) = _
      rw [if_neg hpid, dset_not_mem_eq_append (hfresh p (by simp))]
      rfl
    rw [hstep]
    rw [ih { acc with nodes := acc.nodes ++ [loadedNodeEntry p] }
      (fun q hq => hne q (by simp [hq]))
      (by
        intro q hq
        show q.2.id ∉ (acc.nodes ++ [loadedNodeEntry p]).map (fun r => r.1)
        rw [List.map_append]
        intro hmem
        rcases List.mem_append.mp hmem with hc | hc
        · exact hfresh q (by simp [hq]) hc
        · simp only [loadedNodeEntry, List.map_cons, List.map_nil,
            List.mem_singleton] at hc
          rw [List.map_cons, List.nodup_cons] at hnd
          exact hnd.1 (hc ▸ List.mem_map_of_mem (fun r => r.2.id) hq))
      (by rw [List.map_cons, List.nodup_cons] at hnd; exact hnd.2)]
    show ({ acc with nodes := (acc.nodes ++ [loadedNodeEntry p]) ++ t.map loadedNodeEntry }
      : GDB) = _
    rw [List.append_assoc]
    rfl

/-- The edge-loading fold leaves the node list alone and appends exactly the
rebuilt edge records when all ids are nonempty and all endpoints exist. -/
theorem loadEdges_rebuild (gen : Nat → String) (off : Nat) :
    ∀ (ps : List (Nat × GraphRelationship)) (acc : GDB),
      (∀ p ∈ ps, p.2.id ≠ "" ∧ p.2.source ∈ nodeIds acc ∧ p.2.target ∈ nodeIds acc) →
      (ps.foldl (loadEdgeStep gen off) acc).nodes = acc.nodes ∧
      (ps.foldl (loadEdgeStep gen off) acc).edges.map edgeFields
        = acc.edges.map edgeFields ++ ps.map (fun p => relFields p.2) := by
  intro ps
  induction ps with
  | nil => intro acc _; simp
  | cons p t ih =>
    intro acc hall
    obtain ⟨hid, hs, ht⟩ := hall p (by simp)
    rw [List.foldl_cons]
    have hstep : loadEdgeStep gen off acc p =
        { acc with
          edges := acc.edges ++
            [⟨p.2.source, p.2.target,
              (acc.edges.filter (fun e =>
                e.source == p.2.source && e.target == p.2.target)).length,
              p.2.id, p.2.rtype, p.2.weight⟩]
          edgeIdMap := dset p.2.id (p.2.source, p.2.target,
              (acc.edges.filter (fun e =>
                e.source == p.2.source && e.target == p.2.target)).length)
            acc.edgeIdMap } := by
      unfold loadEdgeStep addEdge
      rw [if_neg hid, ensureNode_of_mem hs, ensureNode_of_mem ht]
    rw [hstep]
    obtain ⟨ha, hb⟩ := ih
      { acc with
        edges := acc.edges ++
          [⟨p.2.source, p.2.target,
            (acc.edges.filter (fun e =>
              e.source == p.2.source && e.target == p.2.target)).length,
            p.2.id, p.2.rtype, p.2.weight⟩]
        edgeIdMap := dset p.2.id (p.2.source, p.2.target,
            (acc.edges.filter (fun e =>
              e.source == p.2.source && e.target == p.2.target)).length)
          acc.edgeIdMap }
      (fun q hq => hall q (by simp [hq]))
    refine ⟨ha, ?_⟩
    rw [hb]
    show (acc.edges ++ [_]).map edgeFields ++ t.map (fun p => relFields p.2) = _
    rw [List.map_append, List.map_cons, List.append_assoc]
    rfl

/-- Claim C6: for every well-formed store state, `save` succeeds and `load`
of the snapshot into a fresh store reproduces the identical node list and
the identical edge set — every node id, text, metadata, embedding and every
edge id, endpoint pair, relation type and weight is preserved and no id is
regenerated (set equality, indeed list equality, of the stored fields). -/
theorem claim6_roundtrip (g : GDB) (hwf : Wf g) :
    ∃ snap, save g = .ok snap ∧ ∀ gen : Nat → String,
      (load gen snap).nodes = g.nodes ∧
      (load gen snap).edges.map edgeFields = g.edges.map edgeFields ∧
      (∀ p : String × NodeAttrs, p ∈ (load gen snap).nodes ↔ p ∈ g.nodes) ∧
      (∀ r, r ∈ (load gen snap).edges.map edgeFields ↔ r ∈ g.edges.map edgeFields) := by
  obtain ⟨hnd, hattrs, hedges, hide, hmap⟩ := hwf
  have hsave : save g = .ok ⟨g.nodes.map nodeDict, g.edges.map edgeToDict⟩ := by
    unfold save
    rw [saveNodes_ok g.nodes (fun p hp => (hattrs p hp).2)]
    rfl
  refine ⟨_, hsave, ?_⟩
  intro gen
  have henum_snd : ((g.nodes.map nodeDict).enum).map Prod.snd = g.nodes.map nodeDict :=
    List.enum_map_snd _
  have hids_ne : ∀ p ∈ (g.nodes.map nodeDict).enum, p.2.id ≠ "" := by
    intro p hp
    have hm : p.2 ∈ g.nodes.map nodeDict := by
      have := List.mem_map_of_mem Prod.snd hp
      rwa [henum_snd] at this
    obtain ⟨q, hq, hqe⟩ := List.mem_map.mp hm
    rw [← hqe]
    exact (hattrs q hq).1
  have hphase1 : ((g.nodes.map nodeDict).enum).foldl (loadNodeStep gen) GDB.empty
      = (⟨g.nodes, [], []⟩ : GDB) := by
    rw [loadNodes_rebuild gen _ _ hids_ne
      (by intro p _; simp [nodeIds, GDB.empty])
      (by
        have h1 : ((g.nodes.map nodeDict).enum).map (fun p => p.2.id)
            = (g.nodes.map nodeDict).map (fun nd => nd.id) := by
          rw [show (fun p : Nat × GraphNode => p.2.id)
              = (fun nd : GraphNode => nd.id) ∘ Prod.snd from rfl]
          rw [← List.map_map, henum_snd]
        rw [h1, List.map_map]
        exact hnd)]
    have h2 : ((g.nodes.map nodeDict).enum).map loadedNodeEntry = g.nodes := by
      rw [show loadedNodeEntry = nodeEntryOfDict ∘ Prod.snd from rfl]
      rw [← List.map_map, henum_snd, List.map_map]
      refine (List.map_congr_left ?_).trans (List.map_id g.nodes)
      intro p hp
      obtain ⟨_, htx, hmd⟩ := hattrs p hp
      obtain ⟨k, a⟩ := p
      obtain ⟨t', m', emb⟩ := a
      obtain ⟨tx, rfl⟩ := Option.ne_none_iff_exists'.mp htx
      obtain ⟨m, rfl⟩ := Option.ne_none_iff_exists'.mp hmd
      rfl
    rw [h2]
    show (⟨[] ++ g.nodes, [], []⟩ : GDB) = (⟨g.nodes, [], []⟩ : GDB)
    rw [List.nil_append]
  have hend' : ∀ p ∈ (g.edges.map edgeToDict).enum,
      p.2.id ≠ "" ∧ p.2.source ∈ nodeIds (⟨g.nodes, [], []⟩ : GDB) ∧
        p.2.target ∈ nodeIds (⟨g.nodes, [], []⟩ : GDB) := by
    intro p hp
    have hmem : p.2 ∈ g.edges.map edgeToDict := by
      have h5 : p.2 ∈ List.map Prod.snd ((g.edges.map edgeToDict).enum) :=
        List.mem_map_of_mem Prod.snd hp
      rwa [List.enum_map_snd] at h5
    obtain ⟨e, he, hee⟩ := List.mem_map.mp hmem
    obtain ⟨h1, h2, h3⟩ := hedges e he
    rw [← hee]
    exact ⟨h1, h2, h3⟩
  have hphase2 := loadEdges_rebuild gen (g.nodes.map nodeDict).length _ _ hend'
  have hn : (load gen ⟨g.nodes.map nodeDict, g.edges.map edgeToDict⟩).nodes = g.nodes := by
    show (((g.edges.map edgeToDict).enum).foldl
        (loadEdgeStep gen (g.nodes.map nodeDict).length)
        (((g.nodes.map nodeDict).enum).foldl (loadNodeStep gen) GDB.empty)).nodes = g.nodes
    rw [hphase1]
    exact hphase2.1
  have hem : (load gen ⟨g.nodes.map nodeDict, g.edges.map edgeToDict⟩).edges.map edgeFields
      = g.edges.map edgeFields := by
    show ((((g.edges.map edgeToDict).enum).foldl
        (loadEdgeStep gen (g.nodes.map nodeDict).length)
        (((g.nodes.map nodeDict).enum).foldl (loadNodeStep gen) GDB.empty)).edges).map
          edgeFields = g.edges.map edgeFields
    rw [hphase1, hphase2.2]
    have h4 : ((g.edges.map edgeToDict).enum).map (fun p => relFields p.2)
        = g.edges.map edgeFields := by
      rw [show (fun p : Nat × GraphRelationship => relFields p.2)
          = relFields ∘ Prod.snd from rfl]
      rw [← List.map_map, List.enum_map_snd, List.map_map]
      exact List.map_congr_left (fun e _ => rfl)
    rw [h4]
    rfl
  exact ⟨hn, hem, fun p => by rw [hn], fun r => by rw [hem]⟩

/-- Witness graph for C6: one node and one self-contained edge. -/
def claim6Graph : GDB :=
  ⟨[("a", ⟨some "ta", some [], none⟩), ("b", ⟨some "tb", some [], some [1]⟩)],
   [⟨"a", "b", 0, "e1", "rel", 2⟩],
   [("e1", ("a", "b", 0))]⟩

/-- Witness for C6 at a concrete store. -/
theorem claim6_wit :
    Wf claim6Graph ∧
    ∃ snap, save claim6Graph = .ok snap ∧ ∀ gen : Nat → String,
      (load gen snap).nodes = claim6Graph.nodes ∧
      (load gen snap).edges.map edgeFields = claim6Graph.edges.map edgeFields ∧
      (∀ p : String × NodeAttrs, p ∈ (load gen snap).nodes ↔ p ∈ claim6Graph.nodes) ∧
      (∀ r, r ∈ (load gen snap).edges.map edgeFields ↔
        r ∈ claim6Graph.edges.map edgeFields) := by
  exact ⟨by decide, claim6_roundtrip claim6Graph (by decide)⟩

/-!  Claim C8: node deletion, cascade and the reported count. -/

theorem dlookup_eq_none_of_not_mem_keys {β : Type} {m : List (String × β)} {k : String}
    (h : k ∉ m.map (fun p => p.1)) : dlookup m k = none := by
  cases hl : dlookup m k with
  | none => rfl
  | some v => exact absurd (dlookup_some_mem_keys hl) h

theorem length_filter_or_and {α : Type} (l : List α) (p q : α → Bool) :
    (l.filter (fun a => p a || q a)).length + (l.filter (fun a => p a && q a)).length
      = (l.filter p).length + (l.filter q).length := by
  induction l with
  | nil => rfl
  | cons a t ih =>
    by_cases hp : p a = true <;> by_cases hq : q a = true <;>
      simp [List.filter_cons, hp, hq] <;> omega

/-- Claim C8 (amended): deleting a present node removes exactly its incident
edges and makes every removed edge id unresolvable through `get_edge`, but the
count reported by the service is `out_degree + in_degree`, which counts each
self-loop twice; it equals the number of incident edges only when the node
carries no self-loop. -/
theorem claim8_corrected (g : GDB) (nid : String) (hwf : Wf g) (hmem : nid ∈ nodeIds g) :
    ∃ resp, (serviceDeleteNode g nid).1 = some resp ∧
      resp.edges_removed
        = (g.edges.filter (fun e => e.source == nid || e.target == nid)).length
          + (g.edges.filter (fun e => e.source == nid && e.target == nid)).length ∧
      ((g.edges.filter (fun e => e.source == nid && e.target == nid)) = [] →
        resp.edges_removed
          = (g.edges.filter (fun e => e.source == nid || e.target == nid)).length) ∧
      (serviceDeleteNode g nid).2.edges
        = g.edges.filter (fun e => ¬(e.source = nid ∨ e.target = nid)) ∧
      (∀ e ∈ g.edges, (e.source = nid ∨ e.target = nid) →
        get_edge (serviceDeleteNode g nid).2 e.id = .ok none) := by
  obtain ⟨_, _, _, hids, hmap⟩ := hwf
  have hdel : delete_node g nid =
      (true,
        { nodes := g.nodes.filter (fun p => ¬(p.1 = nid))
          edges := g.edges.filter (fun e => ¬(e.source = nid ∨ e.target = nid))
          edgeIdMap := g.edgeIdMap.filter (fun p => ¬(p.2.1 = nid ∨ p.2.2.1 = nid)) }) := by
    unfold delete_node
    rw [if_pos hmem]
  have hsvc : serviceDeleteNode g nid =
      (some ⟨"deleted", nid, outDeg g nid + inDeg g nid⟩,
        { nodes := g.nodes.filter (fun p => ¬(p.1 = nid))
          edges := g.edges.filter (fun e => ¬(e.source = nid ∨ e.target = nid))
          edgeIdMap := g.edgeIdMap.filter (fun p => ¬(p.2.1 = nid ∨ p.2.2.1 = nid)) }) := by
    unfold serviceDeleteNode
    rw [hdel, if_pos hmem]
  refine ⟨⟨"deleted", nid, outDeg g nid + inDeg g nid⟩, by rw [hsvc], ?_, ?_, by rw [hsvc], ?_⟩
  · show outDeg g nid + inDeg g nid = _
    unfold outDeg inDeg
    exact (length_filter_or_and g.edges _ _).symm
  · intro hnoloop
    show outDeg g nid + inDeg g nid = _
    unfold outDeg inDeg
    rw [← length_filter_or_and g.edges (fun e => e.source == nid) (fun e => e.target == nid)]
    rw [show (fun e : EdgeRec => (e.source == nid) && (e.target == nid))
        = (fun e : EdgeRec => e.source == nid && e.target == nid) from rfl, hnoloop]
    simp
  · intro e he hinc
    rw [hsvc]
    unfold get_edge
    have hkeys : e.id ∉ (g.edgeIdMap.filter
        (fun p => ¬(p.2.1 = nid ∨ p.2.2.1 = nid))).map (fun p => p.1) := by
      rw [hmap, List.filter_map]
      intro hin
      rw [List.map_map] at hin
      obtain ⟨e', he'mem, he'id⟩ := List.mem_map.mp hin
      have he'f := List.of_mem_filter he'mem
      have he'' := List.mem_of_mem_filter he'mem
      have : e' = e := List.inj_on_of_nodup_map hids he'' he he'id
      rw [this] at he'f
      simp only [Function.comp, decide_eq_true_eq] at he'f
      exact he'f hinc
    rw [dlookup_eq_none_of_not_mem_keys hkeys]

/-- Claim C8 counterexample store: one node `a` carrying a single self-loop. -/
def claim8Graph : GDB :=
  ⟨[("a", ⟨some "t", some [], none⟩)],
   [⟨"a", "a", 0, "e", "r", 1⟩],
   [("e", ("a", "a", 0))]⟩

/-- Claim C8 is false as stated: node `a` has exactly one incident edge
(counting the self-loop once), yet the delete operation reports
`edges_removed = 2` (`out_degree + in_degree` counts the loop twice). -/
theorem claim8_cex :
    (serviceDeleteNode claim8Graph "a").1 = some ⟨"deleted", "a", 2⟩ ∧
    (claim8Graph.edges.filter
      (fun e => e.source == "a" || e.target == "a")).length = 1 ∧
    (2 : Nat) ≠ 1 := by
  refine ⟨by decide, by decide, by decide⟩

/-- Witness for the amended C8 theorem on a store without self-loops. -/
theorem claim8_wit :
    (Wf claim6Graph ∧ "a" ∈ nodeIds claim6Graph) ∧
    ∃ resp, (serviceDeleteNode claim6Graph "a").1 = some resp ∧
      resp.edges_removed
        = (claim6Graph.edges.filter (fun e => e.source == "a" || e.target == "a")).length
          + (claim6Graph.edges.filter
              (fun e => e.source == "a" && e.target == "a")).length ∧
      ((claim6Graph.edges.filter (fun e => e.source == "a" && e.target == "a")) = [] →
        resp.edges_removed
          = (claim6Graph.edges.filter
              (fun e => e.source == "a" || e.target == "a")).length) ∧
      (serviceDeleteNode claim6Graph "a").2.edges
        = claim6Graph.edges.filter (fun e => ¬(e.source = "a" ∨ e.target = "a")) ∧
      (∀ e ∈ claim6Graph.edges, (e.source = "a" ∨ e.target = "a") →
        get_edge (serviceDeleteNode claim6Graph "a").2 e.id = .ok none) :=
  ⟨⟨by decide, by decide⟩, claim8_corrected claim6Graph "a" (by decide) (by decide)⟩

/-!  Claim C7: traversal from an absent start node. -/

/-- Claim C7 is false on `GraphDatabase.traverse` (`graph_db/graph_db.py`):
with the start id `x` absent from an empty store it returns the success value
`[]` instead of failing with a NotFound error. -/
theorem claim7_cex :
    traverse GDB.empty "x" 2 = [] ∧ "x" ∉ nodeIds GDB.empty := by
  refine ⟨by decide, by decide⟩

/-- Claim C7 (amended): for an absent start node, `GraphDB.traverse`
(`graph_db/graph.py`) fails with `NodeNotFoundError`, but
`GraphDatabase.traverse` (`graph_db/graph_db.py`) instead returns the empty
list, a success value. -/
theorem claim7_corrected :
    (∀ g x depth, x ∉ nodeIds g → traverse g x depth = []) ∧
    (∀ G x depth dir, x ∉ gpyNodeIds G → gpyTraverse G x depth dir
      = .error .nodeNotFound) := by
  constructor
  · intro g x depth hx
    unfold traverse
    rw [if_neg hx]
  · intro G x depth dir hx
    unfold gpyTraverse
    rw [if_neg hx]

/-- Witness graph for C7: a single node `a`, no edges. -/
def claim7Graph : GDB := ⟨[("a", ⟨some "t", some [], none⟩)], [], []⟩

/-- Witness for the amended C7 theorem at concrete inputs. -/
theorem claim7_wit :
    ("x" ∉ nodeIds claim7Graph ∧ traverse claim7Graph "x" 3 = []) ∧
    ("x" ∉ gpyNodeIds ⟨[⟨"a", []⟩], []⟩ ∧
      gpyTraverse ⟨[⟨"a", []⟩], []⟩ "x" 3 .dboth = .error .nodeNotFound) := by
  refine ⟨⟨by decide, claim7_corrected.1 claim7Graph "x" 3 (by decide)⟩,
    ⟨by decide, claim7_corrected.2 ⟨[⟨"a", []⟩], []⟩ "x" 3 .dboth (by decide)⟩⟩

/-!  Claim C9: characterization of `GraphDatabase.traverse`.

`traverse g s depth` visits exactly the nodes connected to `s` by an
undirected walk of length at most `depth`; monotonicity in `depth` and the
`depth = 0` case follow. -/

/-- `ReachU g s n k`: there is a walk of length `k` from `s` to `n` that
follows edges in either direction (each step moves to a NetworkX neighbor). -/
inductive ReachU (g : GDB) (s : String) : String → Nat → Prop where
  | refl : ReachU g s s 0
  | snoc {m v : String} {k : Nat} : ReachU g s m k → v ∈ nbrs g m → ReachU g s v (k + 1)

theorem nbrs_length_le (g : GDB) (n : String) :
    (nbrs g n).length ≤ 2 * g.edges.length := by
  unfold nbrs
  refine le_trans (List.Sublist.length_le (List.dedup_sublist _)) ?_
  rw [List.length_append, List.length_map, List.length_map]
  have h1 := List.length_filter_le (fun e : EdgeRec => e.source == n) g.edges
  have h2 := List.length_filter_le (fun e : EdgeRec => e.target == n) g.edges
  omega

theorem pairwise_level_of_const {c : Nat} {l : List (String × Nat)}
    (h : ∀ a ∈ l, a.2 = c) :
    List.Pairwise (fun a b : String × Nat => a.2 ≤ b.2 ∧ b.2 ≤ a.2 + 1) l := by
  induction l with
  | nil => exact List.Pairwise.nil
  | cons a t ih =>
    refine List.Pairwise.cons ?_ (ih (fun b hb => h b (by simp [hb])))
    intro b hb
    rw [h a (by simp), h b (by simp [hb])]
    omega

/-- Harvest at an empty queue: the result list holds exactly the nodes
reachable within `depth`. -/
theorem traverse_harvest (g : GDB) (s : String) (depth : Nat)
    (vis res : List String) (lv : String → Nat)
    (hV : ∀ m ∈ vis, ReachU g s m (lv m) ∧ lv m ≤ depth)
    (hR : ∀ m, m ∈ res ↔ m ∈ vis)
    (hS : s ∈ vis ∧ lv s = 0)
    (hβ : ∀ m ∈ vis, lv m < depth → ∀ v ∈ nbrs g m,
      (v ∈ vis ∧ lv v ≤ lv m + 1) ∨ (v, lv m + 1) ∈ ([] : List (String × Nat))) :
    ∀ n, n ∈ res ↔ ∃ k, k ≤ depth ∧ ReachU g s n k := by
  have hcomp : ∀ n k, ReachU g s n k → k ≤ depth → n ∈ vis ∧ lv n ≤ k := by
    intro n k hw
    induction hw with
    | refl => intro _; exact ⟨hS.1, by omega⟩
    | @snoc m v k hprev hstep ih =>
      intro hk
      obtain ⟨hmv, hlv⟩ := ih (by omega)
      rcases hβ m hmv (by omega) v hstep with ⟨hv1, hv2⟩ | hq
      · exact ⟨hv1, by omega⟩
      · exact absurd hq (by simp)
  intro n
  constructor
  · intro hn
    obtain ⟨hw, hk⟩ := hV n ((hR n).mp hn)
    exact ⟨lv n, hk, hw⟩
  · rintro ⟨k, hk, hw⟩
    exact (hR n).mpr (hcomp n k hw hk).1

/-- Invariant preservation for the BFS loop of `GraphDatabase.traverse`:
given realizable queue entries and visited nodes, the two-level queue shape,
visited levels below the current frontier, and exit coverage of every visited
node's neighborhood, the loop's result is exactly the set of nodes reachable
within `depth`. -/
theorem traverseLoop_correct (g : GDB) (s : String) (depth : Nat) :
    ∀ (fuel : Nat) (q : List (String × Nat)) (vis res : List String) (lv : String → Nat),
      (∀ e ∈ q, ReachU g s e.1 e.2 ∧ e.2 ≤ depth) →
      (∀ m ∈ vis, ReachU g s m (lv m) ∧ lv m ≤ depth) →
      (∀ m, m ∈ res ↔ m ∈ vis) →
      List.Pairwise (fun a b : String × Nat => a.2 ≤ b.2 ∧ b.2 ≤ a.2 + 1) q →
      (∀ m ∈ vis, ∀ e ∈ q, lv m ≤ e.2) →
      (s ∈ vis ∧ lv s = 0) →
      (∀ m ∈ vis, lv m < depth → ∀ v ∈ nbrs g m,
        (v ∈ vis ∧ lv v ≤ lv m + 1) ∨ (v, lv m + 1) ∈ q) →
      qMeasure (2 * g.edges.length + 1) depth (q.map Prod.snd) ≤ fuel →
      ∀ n, n ∈ traverseLoop g depth fuel q vis res ↔ ∃ k, k ≤ depth ∧ ReachU g s n k := by
  intro fuel
  induction fuel with
  | zero =>
    intro q vis res lv hQ hV hR hM hN hS hβ hfuel n
    cases q with
    | nil => exact traverse_harvest g s depth vis res lv hV hR hS hβ n
    | cons e rest =>
      exfalso
      rw [List.map_cons, qMeasure_cons] at hfuel
      have hpos : 0 < (2 * g.edges.length + 1) ^ (depth + 1 - e.2) :=
        Nat.pos_pow_of_pos _ (by omega)
      omega
  | succ fuel ih =>
    intro q vis res lv hQ hV hR hM hN hS hβ hfuel n
    cases q with
    | nil => exact traverse_harvest g s depth vis res lv hV hR hS hβ n
    | cons e rest =>
      obtain ⟨nn, d⟩ := e
      have hQh : ReachU g s nn d ∧ d ≤ depth := hQ (nn, d) (by simp)
      have hdle : d ≤ depth := hQh.2
      rw [List.map_cons, qMeasure_cons] at hfuel
      have hfuel2 : (2 * g.edges.length + 1) ^ (depth + 1 - d)
          + qMeasure (2 * g.edges.length + 1) depth (rest.map Prod.snd)
          ≤ fuel + 1 := hfuel
      have hpos : 0 < (2 * g.edges.length + 1) ^ (depth + 1 - d) :=
        Nat.pos_pow_of_pos _ (by omega)
      show n ∈ traverseLoop g depth (fuel + 1) ((nn, d) :: rest) vis res ↔ _
      rw [traverseLoop]
      by_cases hvis : nn ∈ vis
      · rw [if_pos hvis]
        refine ih rest vis res lv (fun e he => hQ e (by simp [he])) hV hR hM.of_cons
          (fun m hm e he => hN m hm e (by simp [he])) hS ?_ ?_ n
        · intro mm hm hlt vv hv
          rcases hβ mm hm hlt vv hv with h | hq
          · exact Or.inl h
          · rcases List.mem_cons.mp hq with heq | hrest
            · have hv_eq : vv = nn := congrArg Prod.fst heq
              have hd_eq : lv mm + 1 = d := congrArg Prod.snd heq
              refine Or.inl ⟨hv_eq ▸ hvis, ?_⟩
              have h9 := hN nn hvis (nn, d) (by simp)
              have h9' : lv nn ≤ d := h9
              rw [hv_eq]
              omega
            · exact Or.inr hrest
        · omega
      · rw [if_neg hvis]
        have hfresh : ∀ m ∈ vis, m ≠ nn := fun m hm hc => hvis (hc ▸ hm)
        have hV' : ∀ m ∈ vis ++ [nn],
            ReachU g s m (if m = nn then d else lv m) ∧
              (if m = nn then d else lv m) ≤ depth := by
          intro mm hm
          rcases List.mem_append.mp hm with h | h
          · rw [if_neg (hfresh mm h)]
            exact hV mm h
          · simp only [List.mem_singleton] at h
            subst h
            rw [if_pos rfl]
            exact hQh
        have hR' : ∀ m, m ∈ res ++ [nn] ↔ m ∈ vis ++ [nn] := by
          intro m
          simp [hR m]
        have hS' : s ∈ vis ++ [nn] ∧ (if s = nn then d else lv s) = 0 := by
          refine ⟨by simp [hS.1], ?_⟩
          rw [if_neg (hfresh s hS.1)]
          exact hS.2
        by_cases hd : d < depth
        · rw [if_pos hd]
          have hQ' : ∀ e ∈ rest ++ ((nbrs g nn).filter
              (fun m => ¬(m ∈ vis ++ [nn]))).map (fun m => (m, d + 1)),
              ReachU g s e.1 e.2 ∧ e.2 ≤ depth := by
            intro e he
            rcases List.mem_append.mp he with h | h
            · exact hQ e (by simp [h])
            · obtain ⟨v, hv, rfl⟩ := List.mem_map.mp h
              exact ⟨ReachU.snoc hQh.1 (List.mem_of_mem_filter hv), by omega⟩
          have hpush_snd : ∀ x ∈ (((nbrs g nn).filter
              (fun m => ¬(m ∈ vis ++ [nn]))).map (fun m => (m, d + 1))).map Prod.snd,
              x = d + 1 := by
            intro x hx
            rw [List.map_map] at hx
            obtain ⟨v, _, rfl⟩ := List.mem_map.mp hx
            rfl
          have hM' : List.Pairwise (fun a b : String × Nat => a.2 ≤ b.2 ∧ b.2 ≤ a.2 + 1)
              (rest ++ ((nbrs g nn).filter
                (fun m => ¬(m ∈ vis ++ [nn]))).map (fun m => (m, d + 1))) := by
            rw [List.pairwise_append]
            refine ⟨hM.of_cons, ?_, ?_⟩
            · apply pairwise_level_of_const (c := d + 1)
              intro a ha
              obtain ⟨v, _, rfl⟩ := List.mem_map.mp ha
              rfl
            · intro a ha b hb
              obtain ⟨v, _, rfl⟩ := List.mem_map.mp hb
              have h8 : d ≤ a.2 ∧ a.2 ≤ d + 1 := List.rel_of_pairwise_cons hM ha
              show a.2 ≤ d + 1 ∧ d + 1 ≤ a.2 + 1
              omega
          have hN' : ∀ m ∈ vis ++ [nn], ∀ e ∈ rest ++ ((nbrs g nn).filter
              (fun m => ¬(m ∈ vis ++ [nn]))).map (fun m => (m, d + 1)),
              (if m = nn then d else lv m) ≤ e.2 := by
            intro mm hm e he
            have hm2 : (if mm = nn then d else lv mm) ≤ d := by
              rcases List.mem_append.mp hm with h | h
              · rw [if_neg (hfresh mm h)]
                exact hN mm h (nn, d) (by simp)
              · simp only [List.mem_singleton] at h
                subst h
                rw [if_pos rfl]
            rcases List.mem_append.mp he with h | h
            · have h8 : d ≤ e.2 ∧ e.2 ≤ d + 1 := List.rel_of_pairwise_cons hM h
              omega
            · obtain ⟨v, _, rfl⟩ := List.mem_map.mp h
              show _ ≤ d + 1
              omega
          have hβ' : ∀ m ∈ vis ++ [nn], (if m = nn then d else lv m) < depth →
              ∀ v ∈ nbrs g m,
              (v ∈ vis ++ [nn] ∧ (if v = nn then d else lv v) ≤
                (if m = nn then d else lv m) + 1) ∨
              (v, (if m = nn then d else lv m) + 1) ∈ rest ++ ((nbrs g nn).filter
                (fun m => ¬(m ∈ vis ++ [nn]))).map (fun m => (m, d + 1)) := by
            intro mm hm hlt vv hv
            rcases List.mem_append.mp hm with h | h
            · rw [if_neg (hfresh mm h)] at hlt ⊢
              rcases hβ mm h hlt vv hv with ⟨h1, h2⟩ | hq
              · refine Or.inl ⟨by simp [h1], ?_⟩
                rw [if_neg (hfresh vv h1)]
                exact h2
              · rcases List.mem_cons.mp hq with heq | hrest
                · have hv_eq : vv = nn := congrArg Prod.fst heq
                  have hd_eq : lv mm + 1 = d := congrArg Prod.snd heq
                  refine Or.inl ⟨by simp [hv_eq], ?_⟩
                  rw [hv_eq, if_pos rfl]
                  omega
                · exact Or.inr (List.mem_append_left _ hrest)
            · simp only [List.mem_singleton] at h
              subst h
              rw [if_pos rfl] at hlt ⊢
              by_cases hvmem : vv ∈ vis ++ [mm]
              · refine Or.inl ⟨hvmem, ?_⟩
                rcases List.mem_append.mp hvmem with h1 | h1
                · rw [if_neg (hfresh vv h1)]
                  have h9 : lv vv ≤ d := hN vv h1 (mm, d) (by simp)
                  omega
                · simp only [List.mem_singleton] at h1
                  subst h1
                  rw [if_pos rfl]
                  omega
              · refine Or.inr (List.mem_append_right _ ?_)
                exact List.mem_map.mpr
                  ⟨vv, List.mem_filter.mpr ⟨hv, by simpa using hvmem⟩, rfl⟩
          have hfl : qMeasure (2 * g.edges.length + 1) depth
              ((rest ++ ((nbrs g nn).filter
                (fun m => ¬(m ∈ vis ++ [nn]))).map (fun m => (m, d + 1))).map Prod.snd)
              ≤ fuel := by
            rw [List.map_append]
            have hlen : ((((nbrs g nn).filter
                (fun m => ¬(m ∈ vis ++ [nn]))).map (fun m => (m, d + 1))).map
                  Prod.snd).length < 2 * g.edges.length + 1 := by
              rw [List.length_map, List.length_map]
              have h1 := List.length_filter_le
                (fun m => decide ¬(m ∈ vis ++ [nn])) (nbrs g nn)
              have h2 := nbrs_length_le g nn
              omega
            have h3 := qMeasure_expand_lt (B := 2 * g.edges.length + 1) (by omega) hd
              hpush_snd hlen (rest.map Prod.snd)
            rw [qMeasure_cons] at h3
            omega
          exact ih _ _ _ (fun m => if m = nn then d else lv m)
            hQ' hV' hR' hM' hN' hS' hβ' hfl n
        · rw [if_neg hd]
          have hβ' : ∀ m ∈ vis ++ [nn], (if m = nn then d else lv m) < depth →
              ∀ v ∈ nbrs g m,
              (v ∈ vis ++ [nn] ∧ (if v = nn then d else lv v) ≤
                (if m = nn then d else lv m) + 1) ∨
              (v, (if m = nn then d else lv m) + 1) ∈ rest := by
            intro mm hm hlt vv hv
            rcases List.mem_append.mp hm with h | h
            · rw [if_neg (hfresh mm h)] at hlt ⊢
              rcases hβ mm h hlt vv hv with ⟨h1, h2⟩ | hq
              · refine Or.inl ⟨by simp [h1], ?_⟩
                rw [if_neg (hfresh vv h1)]
                exact h2
              · rcases List.mem_cons.mp hq with heq | hrest
                · have hv_eq : vv = nn := congrArg Prod.fst heq
                  have hd_eq : lv mm + 1 = d := congrArg Prod.snd heq
                  refine Or.inl ⟨by simp [hv_eq], ?_⟩
                  rw [hv_eq, if_pos rfl]
                  omega
                · exact Or.inr hrest
            · simp only [List.mem_singleton] at h
              subst h
              rw [if_pos rfl] at hlt
              omega
          have hN' : ∀ m ∈ vis ++ [nn], ∀ e ∈ rest,
              (if m = nn then d else lv m) ≤ e.2 := by
            intro mm hm e he
            have h8 : d ≤ e.2 ∧ e.2 ≤ d + 1 := List.rel_of_pairwise_cons hM he
            rcases List.mem_append.mp hm with h | h
            · rw [if_neg (hfresh mm h)]
              have h9 : lv mm ≤ d := hN mm h (nn, d) (by simp)
              omega
            · simp only [List.mem_singleton] at h
              subst h
              rw [if_pos rfl]
              omega
          refine ih rest (vis ++ [nn]) (res ++ [nn]) (fun m => if m = nn then d else lv m)
            (fun e he => hQ e (by simp [he])) hV' hR' hM.of_cons hN' hS' hβ' ?_ n
          omega

/-- `traverse g s depth` returns exactly the nodes reachable from a present
start node by an undirected walk of length at most `depth`. -/
theorem traverse_mem_iff (g : GDB) (s : String) (depth : Nat) (hs : s ∈ nodeIds g) :
    ∀ n, n ∈ traverse g s depth ↔ ∃ k, k ≤ depth ∧ ReachU g s n k := by
  intro n
  unfold traverse
  rw [if_pos hs]
  obtain ⟨f, hf⟩ : ∃ f, (2 * g.edges.length + 1) ^ (depth + 1) = f + 1 := by
    have hp : 0 < (2 * g.edges.length + 1) ^ (depth + 1) :=
      Nat.pos_pow_of_pos _ (by omega)
    exact ⟨(2 * g.edges.length + 1) ^ (depth + 1) - 1, by omega⟩
  rw [hf, traverseLoop]
  rw [if_neg (by simp : ¬(s ∈ ([] : List String)))]
  by_cases hd : 0 < depth
  · rw [if_pos hd]
    refine traverseLoop_correct g s depth f _ _ _ (fun _ => 0) ?_ ?_ ?_ ?_ ?_ ?_ ?_ ?_ n
    · intro e he
      simp only [List.nil_append] at he
      obtain ⟨v, hv, rfl⟩ := List.mem_map.mp he
      exact ⟨ReachU.snoc ReachU.refl (List.mem_of_mem_filter hv), by omega⟩
    · intro m hm
      simp only [List.nil_append, List.mem_singleton] at hm
      subst hm
      exact ⟨ReachU.refl, Nat.zero_le depth⟩
    · intro m
      rfl
    · apply pairwise_level_of_const (c := 0 + 1)
      intro a ha
      simp only [List.nil_append] at ha
      obtain ⟨v, _, rfl⟩ := List.mem_map.mp ha
      rfl
    · intro m _ e _
      exact Nat.zero_le _
    · exact ⟨by simp, rfl⟩
    · intro m hm _ v hv
      simp only [List.nil_append, List.mem_singleton] at hm
      subst hm
      by_cases hvm : v ∈ [] ++ [m]
      · exact Or.inl ⟨by simpa using hvm, Nat.zero_le _⟩
      · refine Or.inr ?_
        simp only [List.nil_append]
        exact List.mem_map.mpr ⟨v, List.mem_filter.mpr ⟨hv, by simpa using hvm⟩, rfl⟩
    · have hall : ∀ x ∈ ((((nbrs g s).filter
          (fun m => ¬(m ∈ [] ++ [s]))).map (fun m => (m, 0 + 1))).map Prod.snd),
          x = 0 + 1 := by
        intro x hx
        rw [List.map_map] at hx
        obtain ⟨v, _, rfl⟩ := List.mem_map.mp hx
        rfl
      have hlen : ((((nbrs g s).filter
          (fun m => ¬(m ∈ [] ++ [s]))).map (fun m => (m, 0 + 1))).map Prod.snd).length
          < 2 * g.edges.length + 1 := by
        rw [List.length_map, List.length_map]
        have h1 := List.length_filter_le (fun m => decide ¬(m ∈ [] ++ [s])) (nbrs g s)
        have h2 := nbrs_length_le g s
        omega
      have h3 := qMeasure_expand_lt (B := 2 * g.edges.length + 1) (by omega) hd
        hall hlen []
      rw [qMeasure_cons, qMeasure_nil] at h3
      rw [List.map_append]
      simp only [List.map_nil]
      have hsub : depth + 1 - 0 = depth + 1 := by omega
      rw [hsub] at h3
      omega
  · rw [if_neg hd]
    refine traverseLoop_correct g s depth f [] ([] ++ [s]) ([] ++ [s]) (fun _ => 0)
      (by intro e he; exact absurd he (by simp)) ?_ (fun m => Iff.rfl)
      List.Pairwise.nil (by intro m _ e he; exact absurd he (by simp))
      ⟨by simp, rfl⟩ ?_ (by simp [qMeasure]) n
    · intro m hm
      simp only [List.nil_append, List.mem_singleton] at hm
      subst hm
      exact ⟨ReachU.refl, Nat.zero_le depth⟩
    · intro m _ hlt
      have hlt2 : (0 : Nat) < depth := hlt
      exact absurd hlt2 hd

/-- Claim C9: for every graph, every start node present in it and every depth
`d ≥ 1`, the node set of `traverse(start, d)` contains the node set of
`traverse(start, d - 1)`, and `traverse(start, 0)` returns only the start
node. -/
theorem claim9_traverse_monotone (g : GDB) (s : String) (hs : s ∈ nodeIds g)
    (d : Nat) (hd : 1 ≤ d) :
    (∀ n ∈ traverse g s (d - 1), n ∈ traverse g s d) ∧ traverse g s 0 = [s] := by
  constructor
  · intro n hn
    obtain ⟨k, hk, hw⟩ := (traverse_mem_iff g s (d - 1) hs n).mp hn
    exact (traverse_mem_iff g s d hs n).mpr ⟨k, by omega, hw⟩
  · unfold traverse
    rw [if_pos hs]
    obtain ⟨f, hf⟩ : ∃ f, (2 * g.edges.length + 1) ^ (0 + 1) = f + 1 := by
      have hp : 0 < (2 * g.edges.length + 1) ^ (0 + 1) :=
        Nat.pos_pow_of_pos _ (by omega)
      exact ⟨(2 * g.edges.length + 1) ^ (0 + 1) - 1, by omega⟩
    rw [hf, traverseLoop]
    rw [if_neg (by simp : ¬(s ∈ ([] : List String))), if_neg (by omega : ¬(0 < 0))]
    cases f with
    | zero => rfl
    | succ f' => rfl

/-- Witness for C9 at a concrete store. -/
theorem claim9_wit :
    ("a" ∈ nodeIds claim7Graph ∧ (1 : Nat) ≤ 1) ∧
    (∀ n ∈ traverse claim7Graph "a" 0, n ∈ traverse claim7Graph "a" 1) ∧
    traverse claim7Graph "a" 0 = ["a"] := by
  refine ⟨⟨by decide, by decide⟩, ?_⟩
  exact claim9_traverse_monotone claim7Graph "a" (by decide) 1 (by decide)

/-!  The hybrid fusion engine (`HybridRetrievalService.hybrid_search`,
`app/service.py` lines 241-348).  The fusion consumes the candidate list that
`vector_search` produced, so it is modelled as a function of the store and
that list.  Lines 263-308 — the multi-source BFS producing
`graph_scores_map` — are the sub-block `hybridGraphScores`. -/

/-- One vector-search candidate, with the fields the fusion reads. -/
structure VectorSearchResult where
  node_id : String
  text : String
  cosine_similarity : ℚ
  metadata : Metadata
deriving DecidableEq

/-- Multi-source reachability: an undirected walk of length `k` from some
seed in `S` to `n`. -/
def mreach (g : GDB) (S : List String) (n : String) (k : Nat) : Prop :=
  ∃ s ∈ S, ReachU g s n k

/-- The hop-distance bucket of the multi-source BFS:
`0 → 1.0`, `1 → 1.0`, `2 → 0.5` (larger hops are never assigned). -/
def bucket (d : Nat) : ℚ :=
  if d = 0 then 1 else if d = 1 then 1 else if d = 2 then 1 / 2 else 0

/-- The seeding state of the multi-source BFS. -/
structure HSeedState where
  visited : List (String × Nat)
  queue : List (String × Nat)
  gsm : List (String × ℚ)

/-- One iteration of the seeding loop: an unseen candidate id is marked at
depth 0, enqueued, and given graph score `1.0`. -/
def seedStep (acc : HSeedState) (nid : String) : HSeedState :=
  match dlookup acc.visited nid with
  | some _ => acc
  | none => ⟨dset nid 0 acc.visited, acc.queue ++ [(nid, 0)], dset nid 1 acc.gsm⟩

/-- The seeding loop over `start_nodes`. -/
def seedInit (startNodes : List String) : HSeedState :=
  startNodes.foldl seedStep ⟨[], [], []⟩

/-- The multi-source BFS of `hybrid_search`: pop, skip past depth 2, assign
the bucket score, and when below depth 2 and the node exists in the graph,
mark and enqueue every unvisited neighbor one hop further.  (`nbrs` is
duplicate-free, so marking the batch equals the per-neighbor interleaving of
the source.) -/
def hybridBFSLoop (g : GDB) :
    Nat → List (String × Nat) → List (String × Nat) → List (String × ℚ) →
      List (String × ℚ)
  | _, [], _, gsm => gsm
  | 0, _ :: _, _, gsm => gsm
  | fuel + 1, (n, d) :: rest, visited, gsm =>
    if 2 < d then hybridBFSLoop g fuel rest visited gsm
    else
      if d < 2 then
        if n ∈ nodeIds g then
          hybridBFSLoop g fuel
            (rest ++ ((nbrs g n).filter
              (fun v => dlookup visited v = none)).map (fun v => (v, d + 1)))
            (((nbrs g n).filter (fun v => dlookup visited v = none)).foldl
              (fun vis v => dset v (d + 1) vis) visited)
            (dset n (bucket d) gsm)
        else hybridBFSLoop g fuel rest visited (dset n (bucket d) gsm)
      else hybridBFSLoop g fuel rest visited (dset n (bucket d) gsm)

/-- The `graph_scores_map` computed by `hybrid_search` for the given seed
candidate ids. -/
def hybridGraphScores (g : GDB) (startNodes : List String) : List (String × ℚ) :=
  let st := seedInit startNodes
  hybridBFSLoop g (startNodes.length * (2 * g.edges.length + 1) ^ 3)
    st.queue st.visited st.gsm

theorem reachU_zero {g : GDB} {s n : String} (h : ReachU g s n 0) : n = s := by
  cases h
  rfl

theorem mem_nodeIds_of_nbrs {g : GDB}
    (hwf : ∀ e ∈ g.edges, e.source ∈ nodeIds g ∧ e.target ∈ nodeIds g)
    {m v : String} (h : v ∈ nbrs g m) : m ∈ nodeIds g := by
  unfold nbrs at h
  rw [List.mem_dedup] at h
  rcases List.mem_append.mp h with h1 | h1
  · obtain ⟨e, he, _⟩ := List.mem_map.mp h1
    have hsrc : e.source = m := by simpa using List.of_mem_filter he
    exact hsrc ▸ (hwf e (List.mem_of_mem_filter he)).1
  · obtain ⟨e, he, _⟩ := List.mem_map.mp h1
    have htgt : e.target = m := by simpa using List.of_mem_filter he
    exact htgt ▸ (hwf e (List.mem_of_mem_filter he)).2

theorem dlookup_markFold (lvl : Nat) :
    ∀ (news : List String) (V : List (String × Nat)) (v : String),
      dlookup (news.foldl (fun vis v => dset v lvl vis) V) v
        = if v ∈ news then some lvl else dlookup V v := by
  intro news
  induction news with
  | nil => intro V v; simp
  | cons x t ih =>
    intro V v
    rw [List.foldl_cons, ih]
    by_cases hvt : v ∈ t
    · rw [if_pos hvt, if_pos (by simp [hvt])]
    · rw [if_neg hvt]
      by_cases hvx : v = x
      · rw [if_pos (by simp [hvx]), hvx, dlookup_dset_self]
      · rw [if_neg (by simp [hvx, hvt]), dlookup_dset_ne hvx]

/-- The invariant of the seeding loop: after processing `seen`, exactly the
already-seen ids are marked at depth 0, enqueued once at depth 0, and scored
`1.0`. -/
def SeedInv (acc : HSeedState) (seen : List String) : Prop :=
  (∀ n, dlookup acc.visited n = if n ∈ seen then some 0 else none) ∧
  (∀ n, dlookup acc.gsm n = if n ∈ seen then some (1 : ℚ) else none) ∧
  (∀ e ∈ acc.queue, e.2 = 0 ∧ e.1 ∈ seen) ∧
  (∀ n ∈ seen, (n, 0) ∈ acc.queue)

theorem seedStep_inv {acc : HSeedState} {seen : List String} (h : SeedInv acc seen)
    (x : String) : SeedInv (seedStep acc x) (seen ++ [x]) := by
  obtain ⟨h1, h2, h3, h4⟩ := h
  unfold seedStep
  rw [h1 x]
  by_cases hx : x ∈ seen
  · rw [if_pos hx]
    refine ⟨?_, ?_, ?_, ?_⟩
    · intro n
      rw [h1 n]
      by_cases hn : n ∈ seen
      · rw [if_pos hn, if_pos (by simp [hn])]
      · rw [if_neg hn, if_neg (by
          intro hc
          rcases List.mem_append.mp hc with hc1 | hc1
          · exact hn hc1
          · simp only [List.mem_singleton] at hc1
            exact hn (hc1 ▸ hx))]
    · intro n
      rw [h2 n]
      by_cases hn : n ∈ seen
      · rw [if_pos hn, if_pos (by simp [hn])]
      · rw [if_neg hn, if_neg (by
          intro hc
          rcases List.mem_append.mp hc with hc1 | hc1
          · exact hn hc1
          · simp only [List.mem_singleton] at hc1
            exact hn (hc1 ▸ hx))]
    · intro e he
      obtain ⟨he1, he2⟩ := h3 e he
      exact ⟨he1, by simp [he2]⟩
    · intro n hn
      rcases List.mem_append.mp hn with hn1 | hn1
      · exact h4 n hn1
      · simp only [List.mem_singleton] at hn1
        exact h4 n (hn1 ▸ hx)
  · rw [if_neg hx]
    refine ⟨?_, ?_, ?_, ?_⟩
    · intro n
      by_cases hn : n = x
      · subst hn
        show dlookup (dset n 0 acc.visited) n = _
        rw [dlookup_dset_self, if_pos (by simp)]
      · show dlookup (dset x 0 acc.visited) n = _
        rw [dlookup_dset_ne hn, h1 n]
        by_cases hns : n ∈ seen
        · rw [if_pos hns, if_pos (by simp [hns])]
        · rw [if_neg hns, if_neg (by simp [hns, hn])]
    · intro n
      by_cases hn : n = x
      · subst hn
        show dlookup (dset n 1 acc.gsm) n = _
        rw [dlookup_dset_self, if_pos (by simp)]
      · show dlookup (dset x 1 acc.gsm) n = _
        rw [dlookup_dset_ne hn, h2 n]
        by_cases hns : n ∈ seen
        · rw [if_pos hns, if_pos (by simp [hns])]
        · rw [if_neg hns, if_neg (by simp [hns, hn])]
    · intro e he
      rcases List.mem_append.mp he with he1 | he1
      · obtain ⟨ha, hb⟩ := h3 e he1
        exact ⟨ha, by simp [hb]⟩
      · simp only [List.mem_singleton] at he1
        subst he1
        exact ⟨rfl, by simp⟩
    · intro n hn
      rcases List.mem_append.mp hn with hn1 | hn1
      · exact List.mem_append_left _ (h4 n hn1)
      · simp only [List.mem_singleton] at hn1
        subst hn1
        exact List.mem_append_right _ (by simp)

theorem seedFold_inv :
    ∀ (l : List String) (acc : HSeedState) (seen : List String),
      SeedInv acc seen → SeedInv (l.foldl seedStep acc) (seen ++ l) := by
  intro l
  induction l with
  | nil => intro acc seen h; simpa using h
  | cons x t ih =>
    intro acc seen h
    rw [List.foldl_cons]
    have := ih (seedStep acc x) (seen ++ [x]) (seedStep_inv h x)
    rwa [List.append_assoc, List.singleton_append] at this

theorem seedInit_inv (startNodes : List String) :
    SeedInv (seedInit startNodes) startNodes := by
  have h0 : SeedInv ⟨[], [], []⟩ [] := by
    refine ⟨fun n => by simp [dlookup], fun n => by simp [dlookup], ?_, ?_⟩
    · intro e he; exact absurd he (by simp)
    · intro n hn; exact absurd hn (by simp)
  have := seedFold_inv startNodes ⟨[], [], []⟩ [] h0
  simpa using this

theorem seedFold_queue_len :
    ∀ (l : List String) (acc : HSeedState),
      ((l.foldl seedStep acc).queue).length ≤ acc.queue.length + l.length := by
  intro l
  induction l with
  | nil => intro acc; simp
  | cons x t ih =>
    intro acc
    rw [List.foldl_cons]
    refine le_trans (ih (seedStep acc x)) ?_
    unfold seedStep
    cases dlookup acc.visited x with
    | none =>
      simp only [List.length_cons]
      show (acc.queue ++ [(x, 0)]).length + t.length ≤ _
      rw [List.length_append]
      simp
      omega
    | some _ =>
      simp only [List.length_cons]
      show acc.queue.length + t.length ≤ _
      omega

/-- The specification of `graph_scores_map`: every scored node carries the
bucket of its minimum seed distance, and every node within distance 2 of some
seed is scored. -/
def HScoresSpec (g : GDB) (S : List String) (GS : List (String × ℚ)) : Prop :=
  ∀ n,
    (∀ x, dlookup GS n = some x →
      ∃ d, mreach g S n d ∧ (∀ k, mreach g S n k → d ≤ k) ∧ d ≤ 2 ∧ x = bucket d) ∧
    ((∃ k, k ≤ 2 ∧ mreach g S n k) → ∃ x, dlookup GS n = some x)

/-- Harvest of the multi-source BFS at an empty queue. -/
theorem hybrid_harvest (g : GDB) (S : List String)
    (hwf : ∀ e ∈ g.edges, e.source ∈ nodeIds g ∧ e.target ∈ nodeIds g)
    (V : List (String × Nat)) (GS : List (String × ℚ))
    (hB : ∀ n d, dlookup V n = some d → mreach g S n d ∧ d ≤ 2)
    (hC : ∀ n ∈ S, dlookup V n = some 0)
    (hD : ∀ n d, dlookup V n = some d →
      dlookup GS n = some (bucket d) ∨ (n, d) ∈ ([] : List (String × Nat)))
    (hD2 : ∀ n x, dlookup GS n = some x → ∃ d, dlookup V n = some d ∧ x = bucket d)
    (hF : ∀ n d, dlookup V n = some d → ((n, d) ∈ ([] : List (String × Nat))) ∨
      (d < 2 → n ∈ nodeIds g → ∀ v ∈ nbrs g n, ∃ d', d' ≤ d + 1 ∧
        dlookup V v = some d')) :
    HScoresSpec g S GS := by
  have hcomp : ∀ s, s ∈ S → ∀ n k, ReachU g s n k → k ≤ 2 →
      ∃ d, d ≤ k ∧ dlookup V n = some d := by
    intro s hs n k hw
    induction hw with
    | refl => intro _; exact ⟨0, le_refl 0, hC s hs⟩
    | @snoc m v k hprev hstep ih =>
      intro hk
      obtain ⟨dm, hdm, hVm⟩ := ih (by omega)
      rcases hF m dm hVm with hq | hcov
      · exact absurd hq (by simp)
      · obtain ⟨d', hd', hVv⟩ := hcov (by omega) (mem_nodeIds_of_nbrs hwf hstep) v hstep
        exact ⟨d', by omega, hVv⟩
  intro n
  constructor
  · intro x hx
    obtain ⟨d, hVn, rfl⟩ := hD2 n x hx
    obtain ⟨hreach, hle⟩ := hB n d hVn
    refine ⟨d, hreach, ?_, hle, rfl⟩
    intro k hk
    by_cases hk2 : k ≤ 2
    · obtain ⟨s, hs, hw⟩ := hk
      obtain ⟨d', hd', hVn'⟩ := hcomp s hs n k hw hk2
      rw [hVn] at hVn'
      have : d = d' := Option.some_inj.mp hVn'
      omega
    · omega
  · rintro ⟨k, hk, s, hs, hw⟩
    obtain ⟨d, hd, hVn⟩ := hcomp s hs n k hw hk
    rcases hD n d hVn with h | h
    · exact ⟨bucket d, h⟩
    · exact absurd h (by simp)

/-- Invariant induction for the multi-source BFS loop of `hybrid_search`. -/
theorem hybridBFSLoop_correct (g : GDB) (S : List String)
    (hwf : ∀ e ∈ g.edges, e.source ∈ nodeIds g ∧ e.target ∈ nodeIds g) :
    ∀ (fuel : Nat) (q V : List (String × Nat)) (GS : List (String × ℚ)),
      (∀ e ∈ q, dlookup V e.1 = some e.2) →
      (∀ n d, dlookup V n = some d → mreach g S n d ∧ d ≤ 2) →
      (∀ n ∈ S, dlookup V n = some 0) →
      (∀ n d, dlookup V n = some d →
        dlookup GS n = some (bucket d) ∨ (n, d) ∈ q) →
      (∀ n x, dlookup GS n = some x → ∃ d, dlookup V n = some d ∧ x = bucket d) →
      List.Pairwise (fun a b : String × Nat => a.2 ≤ b.2 ∧ b.2 ≤ a.2 + 1) q →
      (∀ n d, dlookup V n = some d → ∀ e ∈ q, d ≤ e.2 + 1) →
      (∀ n d, dlookup V n = some d → ((n, d) ∈ q) ∨ (d < 2 → n ∈ nodeIds g →
        ∀ v ∈ nbrs g n, ∃ d', d' ≤ d + 1 ∧ dlookup V v = some d')) →
      qMeasure (2 * g.edges.length + 1) 2 (q.map Prod.snd) ≤ fuel →
      HScoresSpec g S (hybridBFSLoop g fuel q V GS) := by
  intro fuel
  induction fuel with
  | zero =>
    intro q V GS hA hB hC hD hD2 hM hN hF hfuel
    cases q with
    | nil =>
      show HScoresSpec g S GS
      exact hybrid_harvest g S hwf V GS hB hC hD hD2 hF
    | cons e rest =>
      exfalso
      rw [List.map_cons, qMeasure_cons] at hfuel
      have hp : 0 < (2 * g.edges.length + 1) ^ (2 + 1 - Prod.snd e) :=
        Nat.pos_pow_of_pos _ (by omega)
      omega
  | succ fuel ih =>
    intro q V GS hA hB hC hD hD2 hM hN hF hfuel
    cases q with
    | nil =>
      show HScoresSpec g S GS
      exact hybrid_harvest g S hwf V GS hB hC hD hD2 hF
    | cons e rest =>
      obtain ⟨nn, d⟩ := e
      have hVnn : dlookup V nn = some d := hA (nn, d) (by simp)
      have hd2 : d ≤ 2 := (hB nn d hVnn).2
      have hB1 : 1 ≤ 2 * g.edges.length + 1 := by omega
      rw [hybridBFSLoop]
      rw [if_neg (by omega : ¬ 2 < d)]
      by_cases hdlt : d < 2
      · rw [if_pos hdlt]
        by_cases hmem : nn ∈ nodeIds g
        · rw [if_pos hmem]
          set news := (nbrs g nn).filter (fun v => dlookup V v = none)
            with hnews_def
          have hmemnews : ∀ v, v ∈ news ↔ (v ∈ nbrs g nn ∧ dlookup V v = none) := by
            intro v
            rw [hnews_def, List.mem_filter]
            simp
          have hVlook : ∀ v,
              dlookup (news.foldl (fun vis v => dset v (d + 1) vis) V) v
                = if v ∈ news then some (d + 1) else dlookup V v :=
            fun v => dlookup_markFold (d + 1) news V v
          have hnnnot : nn ∉ news := by
            intro hc
            have h0 := ((hmemnews nn).mp hc).2
            rw [hVnn] at h0
            exact Option.some_ne_none d h0
          have hA' : ∀ e' ∈ rest ++ news.map (fun v => (v, d + 1)),
              dlookup (news.foldl (fun vis v => dset v (d + 1) vis) V) e'.1
                = some e'.2 := by
            intro e' he'
            rcases List.mem_append.mp he' with h1 | h1
            · have hVe := hA e' (by simp [h1])
              have hnot : e'.1 ∉ news := by
                intro hc
                have h0 := ((hmemnews e'.1).mp hc).2
                rw [hVe] at h0
                exact Option.some_ne_none _ h0
              rw [hVlook e'.1, if_neg hnot]
              exact hVe
            · obtain ⟨v, hv, rfl⟩ := List.mem_map.mp h1
              show dlookup (news.foldl (fun vis v => dset v (d + 1) vis) V) v
                = some (d + 1)
              rw [hVlook v, if_pos hv]
          have hB' : ∀ n dd,
              dlookup (news.foldl (fun vis v => dset v (d + 1) vis) V) n = some dd →
                mreach g S n dd ∧ dd ≤ 2 := by
            intro n dd hV'
            rw [hVlook n] at hV'
            by_cases hn : n ∈ news
            · rw [if_pos hn] at hV'
              have hdd : dd = d + 1 := (Option.some_inj.mp hV').symm
              subst hdd
              obtain ⟨s, hs, hw⟩ := (hB nn d hVnn).1
              exact ⟨⟨s, hs, ReachU.snoc hw ((hmemnews n).mp hn).1⟩, by omega⟩
            · rw [if_neg hn] at hV'
              exact hB n dd hV'
          have hC' : ∀ n ∈ S,
              dlookup (news.foldl (fun vis v => dset v (d + 1) vis) V) n
                = some 0 := by
            intro n hn
            have h0 := hC n hn
            have hnot : n ∉ news := by
              intro hc
              have h1 := ((hmemnews n).mp hc).2
              rw [h0] at h1
              exact Option.some_ne_none 0 h1
            rw [hVlook n, if_neg hnot]
            exact h0
          have hD' : ∀ n dd,
              dlookup (news.foldl (fun vis v => dset v (d + 1) vis) V) n = some dd →
                dlookup (dset nn (bucket d) GS) n = some (bucket dd) ∨
                  (n, dd) ∈ rest ++ news.map (fun v => (v, d + 1)) := by
            intro n dd hV'
            rw [hVlook n] at hV'
            by_cases hn : n ∈ news
            · rw [if_pos hn] at hV'
              have hdd : dd = d + 1 := (Option.some_inj.mp hV').symm
              subst hdd
              exact Or.inr (List.mem_append_right _ (List.mem_map.mpr ⟨n, hn, rfl⟩))
            · rw [if_neg hn] at hV'
              by_cases hnn : n = nn
              · rw [hnn, hVnn] at hV'
                have hdd : dd = d := (Option.some_inj.mp hV').symm
                subst hdd
                exact Or.inl (by rw [hnn, dlookup_dset_self])
              · rcases hD n dd hV' with h | h
                · exact Or.inl (by rw [dlookup_dset_ne hnn]; exact h)
                · rcases List.mem_cons.mp h with heq | h2
                  · exact absurd (congrArg Prod.fst heq) hnn
                  · exact Or.inr (List.mem_append_left _ h2)
          have hD2' : ∀ n x, dlookup (dset nn (bucket d) GS) n = some x →
              ∃ dd, dlookup (news.foldl (fun vis v => dset v (d + 1) vis) V) n
                = some dd ∧ x = bucket dd := by
            intro n x hx
            by_cases hnn : n = nn
            · rw [hnn, dlookup_dset_self] at hx
              refine ⟨d, ?_, (Option.some_inj.mp hx).symm⟩
              rw [hnn, hVlook nn, if_neg hnnnot]
              exact hVnn
            · rw [dlookup_dset_ne hnn] at hx
              obtain ⟨dd, hVd, hxb⟩ := hD2 n x hx
              refine ⟨dd, ?_, hxb⟩
              have hnot : n ∉ news := by
                intro hc
                have h1 := ((hmemnews n).mp hc).2
                rw [hVd] at h1
                exact Option.some_ne_none dd h1
              rw [hVlook n, if_neg hnot]
              exact hVd
          have hconst : ∀ a ∈ news.map (fun v => (v, d + 1)), a.2 = d + 1 := by
            intro a ha
            obtain ⟨v, hv, rfl⟩ := List.mem_map.mp ha
            rfl
          have hM' : List.Pairwise
              (fun a b : String × Nat => a.2 ≤ b.2 ∧ b.2 ≤ a.2 + 1)
              (rest ++ news.map (fun v => (v, d + 1))) := by
            refine List.pairwise_append.mpr
              ⟨hM.of_cons, pairwise_level_of_const hconst, ?_⟩
            intro a ha b hb
            have h8 : d ≤ a.2 ∧ a.2 ≤ d + 1 := List.rel_of_pairwise_cons hM ha
            have h9 : b.2 = d + 1 := hconst b hb
            omega
          have hN' : ∀ n dd,
              dlookup (news.foldl (fun vis v => dset v (d + 1) vis) V) n = some dd →
                ∀ e' ∈ rest ++ news.map (fun v => (v, d + 1)), dd ≤ e'.2 + 1 := by
            intro n dd hV' e' he'
            have he2 : d ≤ e'.2 := by
              rcases List.mem_append.mp he' with h1 | h1
              · exact (List.rel_of_pairwise_cons hM h1).1
              · have := hconst e' h1
                omega
            rw [hVlook n] at hV'
            by_cases hn : n ∈ news
            · rw [if_pos hn] at hV'
              have hdd : dd = d + 1 := (Option.some_inj.mp hV').symm
              omega
            · rw [if_neg hn] at hV'
              have hddle : dd ≤ d + 1 := hN n dd hV' (nn, d) (by simp)
              omega
          have hF' : ∀ n dd,
              dlookup (news.foldl (fun vis v => dset v (d + 1) vis) V) n = some dd →
                ((n, dd) ∈ rest ++ news.map (fun v => (v, d + 1))) ∨
                  (dd < 2 → n ∈ nodeIds g → ∀ v ∈ nbrs g n, ∃ d', d' ≤ dd + 1 ∧
                    dlookup (news.foldl (fun vis v => dset v (d + 1) vis) V) v
                      = some d') := by
            intro n dd hV'
            rw [hVlook n] at hV'
            by_cases hn : n ∈ news
            · rw [if_pos hn] at hV'
              have hdd : dd = d + 1 := (Option.some_inj.mp hV').symm
              subst hdd
              exact Or.inl (List.mem_append_right _ (List.mem_map.mpr ⟨n, hn, rfl⟩))
            · rw [if_neg hn] at hV'
              by_cases hnn : n = nn
              · right
                intro _ _ v hv
                rw [hnn, hVnn] at hV'
                have hdd : dd = d := (Option.some_inj.mp hV').symm
                have hvnb : v ∈ nbrs g nn := by rw [← hnn]; exact hv
                by_cases hvnews : v ∈ news
                · exact ⟨d + 1, by omega, by rw [hVlook v, if_pos hvnews]⟩
                · rcases hdveq : dlookup V v with _ | dv
                  · exact absurd ((hmemnews v).mpr ⟨hvnb, hdveq⟩) hvnews
                  · have hdvle : dv ≤ d + 1 := hN v dv hdveq (nn, d) (by simp)
                    exact ⟨dv, by omega,
                      by rw [hVlook v, if_neg hvnews]; exact hdveq⟩
              · rcases hF n dd hV' with h | h
                · rcases List.mem_cons.mp h with heq | h2
                  · exact absurd (congrArg Prod.fst heq) hnn
                  · exact Or.inl (List.mem_append_left _ h2)
                · right
                  intro hdd2 hmemn v hv
                  obtain ⟨d', hd'le, hd'⟩ := h hdd2 hmemn v hv
                  refine ⟨d', hd'le, ?_⟩
                  have hnot : v ∉ news := by
                    intro hc
                    have h1 := ((hmemnews v).mp hc).2
                    rw [hd'] at h1
                    exact Option.some_ne_none d' h1
                  rw [hVlook v, if_neg hnot]
                  exact hd'
          have hlen : ((news.map (fun v => (v, d + 1))).map Prod.snd).length
              < 2 * g.edges.length + 1 := by
            rw [List.length_map, List.length_map]
            have h1 : news.length ≤ (nbrs g nn).length := by
              rw [hnews_def]
              exact List.length_filter_le _ _
            have h2 := nbrs_length_le g nn
            omega
          have hall : ∀ x ∈ (news.map (fun v => (v, d + 1))).map Prod.snd,
              x = d + 1 := by
            intro x hx
            obtain ⟨a, ha, rfl⟩ := List.mem_map.mp hx
            obtain ⟨v, hv, rfl⟩ := List.mem_map.mp ha
            rfl
          have hfl : qMeasure (2 * g.edges.length + 1) 2
              ((rest ++ news.map (fun v => (v, d + 1))).map Prod.snd) ≤ fuel := by
            rw [List.map_append]
            have hlt := qMeasure_expand_lt hB1 hdlt hall hlen (rest.map Prod.snd)
            have hcons : qMeasure (2 * g.edges.length + 1) 2
                (d :: rest.map Prod.snd) ≤ fuel + 1 := hfuel
            omega
          exact ih _ _ _ hA' hB' hC' hD' hD2' hM' hN' hF' hfl
        · rw [if_neg hmem]
          have hD'' : ∀ n dd, dlookup V n = some dd →
              dlookup (dset nn (bucket d) GS) n = some (bucket dd) ∨
                (n, dd) ∈ rest := by
            intro n dd hVd
            by_cases hnn : n = nn
            · rw [hnn, hVnn] at hVd
              have hdd : dd = d := (Option.some_inj.mp hVd).symm
              subst hdd
              exact Or.inl (by rw [hnn, dlookup_dset_self])
            · rcases hD n dd hVd with h | h
              · exact Or.inl (by rw [dlookup_dset_ne hnn]; exact h)
              · rcases List.mem_cons.mp h with heq | h2
                · exact absurd (congrArg Prod.fst heq) hnn
                · exact Or.inr h2
          have hD2'' : ∀ n x, dlookup (dset nn (bucket d) GS) n = some x →
              ∃ dd, dlookup V n = some dd ∧ x = bucket dd := by
            intro n x hx
            by_cases hnn : n = nn
            · rw [hnn, dlookup_dset_self] at hx
              exact ⟨d, by rw [hnn]; exact hVnn, (Option.some_inj.mp hx).symm⟩
            · rw [dlookup_dset_ne hnn] at hx
              exact hD2 n x hx
          have hF'' : ∀ n dd, dlookup V n = some dd → ((n, dd) ∈ rest) ∨
              (dd < 2 → n ∈ nodeIds g → ∀ v ∈ nbrs g n, ∃ d', d' ≤ dd + 1 ∧
                dlookup V v = some d') := by
            intro n dd hVd
            rcases hF n dd hVd with h | h
            · rcases List.mem_cons.mp h with heq | h2
              · right
                intro _ hmemn
                have hn : n = nn := congrArg Prod.fst heq
                exact absurd (hn ▸ hmemn) hmem
              · exact Or.inl h2
            · exact Or.inr h
          have hfl : qMeasure (2 * g.edges.length + 1) 2
              (rest.map Prod.snd) ≤ fuel := by
            have h1 := qMeasure_tail_lt hB1 2 d (rest.map Prod.snd)
            have h2 : qMeasure (2 * g.edges.length + 1) 2
                (d :: rest.map Prod.snd) ≤ fuel + 1 := hfuel
            omega
          exact ih _ _ _ (fun e' he' => hA e' (by simp [he'])) hB hC hD'' hD2''
            hM.of_cons (fun n dd h e' he' => hN n dd h e' (by simp [he'])) hF'' hfl
      · rw [if_neg hdlt]
        have hD'' : ∀ n dd, dlookup V n = some dd →
            dlookup (dset nn (bucket d) GS) n = some (bucket dd) ∨
              (n, dd) ∈ rest := by
          intro n dd hVd
          by_cases hnn : n = nn
          · rw [hnn, hVnn] at hVd
            have hdd : dd = d := (Option.some_inj.mp hVd).symm
            subst hdd
            exact Or.inl (by rw [hnn, dlookup_dset_self])
          · rcases hD n dd hVd with h | h
            · exact Or.inl (by rw [dlookup_dset_ne hnn]; exact h)
            · rcases List.mem_cons.mp h with heq | h2
              · exact absurd (congrArg Prod.fst heq) hnn
              · exact Or.inr h2
        have hD2'' : ∀ n x, dlookup (dset nn (bucket d) GS) n = some x →
            ∃ dd, dlookup V n = some dd ∧ x = bucket dd := by
          intro n x hx
          by_cases hnn : n = nn
          · rw [hnn, dlookup_dset_self] at hx
            exact ⟨d, by rw [hnn]; exact hVnn, (Option.some_inj.mp hx).symm⟩
          · rw [dlookup_dset_ne hnn] at hx
            exact hD2 n x hx
        have hF'' : ∀ n dd, dlookup V n = some dd → ((n, dd) ∈ rest) ∨
            (dd < 2 → n ∈ nodeIds g → ∀ v ∈ nbrs g n, ∃ d', d' ≤ dd + 1 ∧
              dlookup V v = some d') := by
          intro n dd hVd
          rcases hF n dd hVd with h | h
          · rcases List.mem_cons.mp h with heq | h2
            · right
              intro hlt _
              have hddn : dd = d := congrArg Prod.snd heq
              omega
            · exact Or.inl h2
          · exact Or.inr h
        have hfl : qMeasure (2 * g.edges.length + 1) 2
            (rest.map Prod.snd) ≤ fuel := by
          have h1 := qMeasure_tail_lt hB1 2 d (rest.map Prod.snd)
          have h2 : qMeasure (2 * g.edges.length + 1) 2
              (d :: rest.map Prod.snd) ≤ fuel + 1 := hfuel
          omega
        exact ih _ _ _ (fun e' he' => hA e' (by simp [he'])) hB hC hD'' hD2''
          hM.of_cons (fun n dd h e' he' => hN n dd h e' (by simp [he'])) hF'' hfl

/-- The `graph_scores_map` of `hybrid_search` satisfies `HScoresSpec`: shared
characterization used by the fusion claims. -/
theorem hybridGraphScores_spec (g : GDB) (S : List String)
    (hwf : ∀ e ∈ g.edges, e.source ∈ nodeIds g ∧ e.target ∈ nodeIds g) :
    HScoresSpec g S (hybridGraphScores g S) := by
  obtain ⟨h1, h2, h3, h4⟩ := seedInit_inv S
  show HScoresSpec g S
    (hybridBFSLoop g (S.length * (2 * g.edges.length + 1) ^ 3)
      (seedInit S).queue (seedInit S).visited (seedInit S).gsm)
  refine hybridBFSLoop_correct g S hwf _ _ _ _ ?_ ?_ ?_ ?_ ?_ ?_ ?_ ?_ ?_
  · intro e he
    obtain ⟨he0, heS⟩ := h3 e he
    rw [h1 e.1, if_pos heS, he0]
  · intro n d hV
    rw [h1 n] at hV
    by_cases hn : n ∈ S
    · rw [if_pos hn] at hV
      have hd : d = 0 := (Option.some_inj.mp hV).symm
      subst hd
      exact ⟨⟨n, hn, ReachU.refl⟩, by omega⟩
    · rw [if_neg hn] at hV
      exact absurd hV (by simp)
  · intro n hn
    rw [h1 n, if_pos hn]
  · intro n d hV
    rw [h1 n] at hV
    by_cases hn : n ∈ S
    · rw [if_pos hn] at hV
      have hd : d = 0 := (Option.some_inj.mp hV).symm
      subst hd
      left
      rw [h2 n, if_pos hn]
      rfl
    · rw [if_neg hn] at hV
      exact absurd hV (by simp)
  · intro n x hx
    rw [h2 n] at hx
    by_cases hn : n ∈ S
    · rw [if_pos hn] at hx
      have hx1 : x = 1 := (Option.some_inj.mp hx).symm
      exact ⟨0, by rw [h1 n, if_pos hn], by rw [hx1]; rfl⟩
    · rw [if_neg hn] at hx
      exact absurd hx (by simp)
  · exact pairwise_level_of_const (fun a ha => (h3 a ha).1)
  · intro n d hV e he
    rw [h1 n] at hV
    by_cases hn : n ∈ S
    · rw [if_pos hn] at hV
      have hd : d = 0 := (Option.some_inj.mp hV).symm
      omega
    · rw [if_neg hn] at hV
      exact absurd hV (by simp)
  · intro n d hV
    rw [h1 n] at hV
    by_cases hn : n ∈ S
    · rw [if_pos hn] at hV
      have hd : d = 0 := (Option.some_inj.mp hV).symm
      subst hd
      exact Or.inl (h4 n hn)
    · rw [if_neg hn] at hV
      exact absurd hV (by simp)
  · have hconst : ∀ x ∈ (seedInit S).queue.map Prod.snd, x = 0 := by
      intro x hx
      obtain ⟨a, ha, rfl⟩ := List.mem_map.mp hx
      exact (h3 a ha).1
    rw [qMeasure_const hconst, List.length_map]
    have hlen : (seedInit S).queue.length ≤ S.length := by
      have h5 := seedFold_queue_len S ⟨[], [], []⟩
      simpa [seedInit] using h5
    exact Nat.mul_le_mul_right ((2 * g.edges.length + 1) ^ (2 + 1 - 0)) hlen

/-- Claim C4: on a well-formed graph (every edge endpoint present), the
multi-source expansion of `hybrid_search` assigns every node its minimum
undirected hop distance over all seeds (all seeds start at hop 0), mapped
through the fixed buckets `0,1 ↦ 1.0`, `2 ↦ 0.5`; nodes farther than 2 hops
from every seed get no graph score. -/
theorem claim4_hybrid_min_hop (g : GDB) (S : List String)
    (hwf : ∀ e ∈ g.edges, e.source ∈ nodeIds g ∧ e.target ∈ nodeIds g)
    (n : String) :
    (∀ x, dlookup (hybridGraphScores g S) n = some x →
      ∃ d, mreach g S n d ∧ (∀ k, mreach g S n k → d ≤ k) ∧ d ≤ 2 ∧
        x = bucket d) ∧
    ((∃ k, k ≤ 2 ∧ mreach g S n k) →
      ∃ x, dlookup (hybridGraphScores g S) n = some x) ∧
    ((∀ k, mreach g S n k → 2 < k) →
      dlookup (hybridGraphScores g S) n = none) ∧
    bucket 0 = 1 ∧ bucket 1 = 1 ∧ bucket 2 = 1 / 2 := by
  obtain ⟨hsound, hcompl⟩ := hybridGraphScores_spec g S hwf n
  refine ⟨hsound, hcompl, ?_, rfl, rfl, rfl⟩
  intro hfar
  rcases hx : dlookup (hybridGraphScores g S) n with _ | x
  · rfl
  · obtain ⟨d, hreach, _, hd2, _⟩ := hsound x hx
    have := hfar d hreach
    omega

/-- Claim C4 witness graph: nodes `a`, `b` and one edge `a → b`. -/
def hybrid4Graph : GDB :=
  ⟨[("a", ⟨some "ta", some [], none⟩), ("b", ⟨some "tb", some [], none⟩)],
   [⟨"a", "b", 0, "e1", "rel", 1⟩],
   [("e1", ("a", "b", 0))]⟩

/-- Claim C4 witness: the characterization applied to a concrete graph with
seed set `["a"]`, at node `b`. -/
theorem claim4_wit :
    (∀ e ∈ hybrid4Graph.edges,
      e.source ∈ nodeIds hybrid4Graph ∧ e.target ∈ nodeIds hybrid4Graph) ∧
    ((∀ x, dlookup (hybridGraphScores hybrid4Graph ["a"]) "b" = some x →
      ∃ d, mreach hybrid4Graph ["a"] "b" d ∧
        (∀ k, mreach hybrid4Graph ["a"] "b" k → d ≤ k) ∧ d ≤ 2 ∧
        x = bucket d) ∧
    ((∃ k, k ≤ 2 ∧ mreach hybrid4Graph ["a"] "b" k) →
      ∃ x, dlookup (hybridGraphScores hybrid4Graph ["a"]) "b" = some x) ∧
    ((∀ k, mreach hybrid4Graph ["a"] "b" k → 2 < k) →
      dlookup (hybridGraphScores hybrid4Graph ["a"]) "b" = none) ∧
    bucket 0 = 1 ∧ bucket 1 = 1 ∧ bucket 2 = 1 / 2) :=
  ⟨by decide, claim4_hybrid_min_hop hybrid4Graph ["a"] (by decide) "b"⟩

/-!  The rest of `hybrid_search` (`service.py` lines 241-348): the
`candidates` dict, the combine loop, rounding, sorting, truncation. -/

/-- One entry of the `candidates` / `final_candidates` dict. -/
structure CandData where
  text : String
  metadata : Metadata
  cos : ℚ
  gs : ℚ
deriving DecidableEq

/-- One element of the `hybrid_search` result list (`HybridSearchResult`). -/
structure HybridResult where
  node_id : String
  text : String
  cosine_similarity : ℚ
  graph_score : ℚ
  final_score : ℚ
  metadata : Metadata
deriving DecidableEq

/-- Floor of a rational (`Int.fdiv` floors, the denominator is positive). -/
def qfloor (q : ℚ) : ℤ := q.num.fdiv (q.den : ℤ)

/-- Round to the nearest integer, ties to the even integer, as Python
`round` does. -/
def roundHalfEven (q : ℚ) : ℤ :=
  if q - (qfloor q : ℚ) < 1 / 2 then qfloor q
  else if q - (qfloor q : ℚ) = 1 / 2 then
    (if qfloor q % 2 = 0 then qfloor q else qfloor q + 1)
  else qfloor q + 1

/-- Python `round(x, 4)`. -/
def pyRound4 (q : ℚ) : ℚ := (roundHalfEven (q * 10000) : ℚ) / 10000

/-- A value that is an exact multiple of `1/10000` is its own rounding. -/
theorem pyRound4_of (n : ℤ) (q : ℚ) (h : q * 10000 = (n : ℚ)) :
    pyRound4 q = (n : ℚ) / 10000 := by
  have hq : qfloor (q * 10000) = n := by
    rw [h]
    show ((n : ℚ)).num.fdiv (((n : ℚ)).den : ℤ) = n
    rw [Rat.num_intCast, Rat.den_intCast, Nat.cast_one, Int.fdiv_one]
  have hr : q * 10000 - (qfloor (q * 10000) : ℚ) = 0 := by
    rw [hq, h]
    ring
  unfold pyRound4 roundHalfEven
  rw [if_pos (show q * 10000 - (qfloor (q * 10000) : ℚ) < 1 / 2 by
    rw [hr]; norm_num)]
  rw [hq]

/-- The `candidates` dict seeded from the vector results (each with graph
score `0.0`). -/
def candInit (vres : List VectorSearchResult) : List (String × CandData) :=
  vres.foldl (fun acc r =>
    dset r.node_id ⟨r.text, r.metadata, r.cosine_similarity, 0⟩ acc) []

/-- The combine loop over `graph_scores_map`: a known candidate gets its
graph score updated in place; a graph-only id is fetched with `get_node`
(which may raise) and, when a node comes back, appended with similarity
`0.0`. -/
def combineGraph (g : GDB) :
    List (String × ℚ) → List (String × CandData) →
      Except PyErr (List (String × CandData))
  | [], fc => .ok fc
  | (nid, gs) :: rest, fc =>
    match dlookup fc nid with
    | some dat =>
      combineGraph g rest (dset nid ⟨dat.text, dat.metadata, dat.cos, gs⟩ fc)
    | none =>
      match get_node g nid with
      | .error e => .error e
      | .ok none => combineGraph g rest fc
      | .ok (some node) =>
        combineGraph g rest (fc ++ [(nid, ⟨node.text, node.metadata, 0, gs⟩)])

/-- Build one result row per `final_candidates` entry: each displayed score
is rounded to 4 places and the final score is
`cos * vector_weight + gs * graph_weight`, rounded to 4 places. -/
def finalize (vw gw : ℚ) (fc : List (String × CandData)) : List HybridResult :=
  fc.map (fun p =>
    ⟨p.1, p.2.text, pyRound4 p.2.cos, pyRound4 p.2.gs,
      pyRound4 (p.2.cos * vw + p.2.gs * gw), p.2.metadata⟩)

/-- The descending comparison on the final score
(`results.sort(key=lambda x: x.final_score, reverse=True)`; `mergeSort` is
stable, as Python's sort is). -/
def hsLE (a b : HybridResult) : Bool := decide (b.final_score ≤ a.final_score)

/-- `HybridRetrievalService.hybrid_search` after the vector search: the
multi-source BFS, the combine, rounding, the stable descending sort by final
score, and the `top_k` truncation. -/
def hybrid_search (g : GDB) (vres : List VectorSearchResult) (vw gw : ℚ)
    (top_k : Nat) : Except PyErr (List HybridResult) :=
  match combineGraph g (hybridGraphScores g (vres.map (fun r => r.node_id)))
      (candInit vres) with
  | .error e => .error e
  | .ok fc => .ok (((finalize vw gw fc).mergeSort hsLE).take top_k)

/-!  Dict support lemmas for the combine loop. -/

theorem dlookup_mem {β : Type} {m : List (String × β)} {k : String} {v : β}
    (h : dlookup m k = some v) : (k, v) ∈ m := by
  induction m with
  | nil => exact absurd h (by simp [dlookup])
  | cons p t ih =>
    rw [dlookup_cons] at h
    by_cases hp : p.1 = k
    · rw [if_pos hp] at h
      have h2 : p.2 = v := Option.some_inj.mp h
      have hpk : p = (k, v) := Prod.ext hp h2
      rw [← hpk]
      exact List.mem_cons_self p t
    · rw [if_neg hp] at h
      exact List.mem_cons_of_mem _ (ih h)

theorem mem_dset {β : Type} {p : String × β} {k : String} {v : β}
    {m : List (String × β)} (h : p ∈ dset k v m) : p ∈ m ∨ p = (k, v) := by
  unfold dset at h
  split at h
  · obtain ⟨q, hq, hqe⟩ := List.mem_map.mp h
    by_cases hqk : q.1 = k
    · right
      rw [if_pos (by simp [hqk])] at hqe
      exact hqe.symm
    · left
      rw [if_neg (by simp [hqk])] at hqe
      exact hqe ▸ hq
  · rcases List.mem_append.mp h with h1 | h1
    · exact Or.inl h1
    · right
      simpa using h1

theorem dkeys_dset_nodup {β : Type} {m : List (String × β)}
    (h : (m.map (fun p => p.1)).Nodup) (k : String) (v : β) :
    ((dset k v m).map (fun p => p.1)).Nodup := by
  by_cases hk : k ∈ m.map (fun p => p.1)
  · rw [dkeys_dset_of_mem hk]
    exact h
  · rw [dkeys_dset_of_not_mem hk]
    rw [List.nodup_append]
    exact ⟨h, by simp, by
      intro a ha hc
      simp only [List.mem_singleton] at hc
      exact hk (hc ▸ ha)⟩

theorem mem_keys_dset {β : Type} (k' k : String) (v : β)
    (m : List (String × β)) :
    k' ∈ (dset k v m).map (fun p => p.1) ↔
      k' ∈ m.map (fun p => p.1) ∨ k' = k := by
  by_cases hk : k ∈ m.map (fun p => p.1)
  · rw [dkeys_dset_of_mem hk]
    constructor
    · exact Or.inl
    · intro h
      rcases h with h | h
      · exact h
      · exact h ▸ hk
  · rw [dkeys_dset_of_not_mem hk, List.mem_append]
    constructor
    · intro h
      rcases h with h | h
      · exact Or.inl h
      · right
        simpa using h
    · intro h
      rcases h with h | h
      · exact Or.inl h
      · right
        simp [h]

theorem dlookup_of_mem_nodup {β : Type} :
    ∀ {m : List (String × β)}, (m.map (fun p => p.1)).Nodup →
      ∀ {p : String × β}, p ∈ m → dlookup m p.1 = some p.2 := by
  intro m
  induction m with
  | nil =>
    intro _ p hp
    exact absurd hp (by simp)
  | cons q t ih =>
    intro hnd p hp
    rw [List.map_cons, List.nodup_cons] at hnd
    rcases List.mem_cons.mp hp with h1 | h1
    · rw [h1, dlookup_cons, if_pos rfl]
    · rw [dlookup_cons]
      have hne : q.1 ≠ p.1 := by
        intro hc
        exact hnd.1 (hc ▸ List.mem_map.mpr ⟨p, h1, rfl⟩)
      rw [if_neg hne]
      exact ih hnd.2 h1

/-!  `get_node` under well-formedness. -/

theorem get_node_of_absent {g : GDB} {nid : String} (h : nid ∉ nodeIds g) :
    get_node g nid = .ok none := by
  unfold get_node
  rw [dlookup_eq_none_of_not_mem_keys (show nid ∉ g.nodes.map (fun p => p.1)
    from h)]

theorem get_node_of_present_wf {g : GDB} (hwf : Wf g) {nid : String}
    (h : nid ∈ nodeIds g) : ∃ node, get_node g nid = .ok (some node) := by
  obtain ⟨a, ha⟩ := exists_dlookup_of_any ((any_keys_iff nid g.nodes).mpr h)
  obtain ⟨_, htext, hmeta⟩ := hwf.2.1 (nid, a) (dlookup_mem ha)
  obtain ⟨ta, ma, ea⟩ := a
  cases ta with
  | none => exact absurd rfl htext
  | some t =>
    cases ma with
    | none => exact absurd rfl hmeta
    | some mm =>
      refine ⟨⟨nid, t, mm, ea⟩, ?_⟩
      unfold get_node
      rw [ha]

theorem get_node_ok_of_wf {g : GDB} (hwf : Wf g) (nid : String) :
    ∃ o : Option GraphNode, get_node g nid = .ok o := by
  by_cases h : nid ∈ nodeIds g
  · obtain ⟨node, hn⟩ := get_node_of_present_wf hwf h
    exact ⟨some node, hn⟩
  · exact ⟨none, get_node_of_absent h⟩

/-!  Key-nodup invariants of the score map and the candidates dict. -/

theorem seedFold_gsm_nodup :
    ∀ (l : List String) (acc : HSeedState),
      ((acc.gsm.map (fun p => p.1)).Nodup) →
      (((l.foldl seedStep acc).gsm.map (fun p => p.1)).Nodup) := by
  intro l
  induction l with
  | nil => intro acc h; exact h
  | cons x t ih =>
    intro acc h
    rw [List.foldl_cons]
    refine ih (seedStep acc x) ?_
    unfold seedStep
    split
    · exact h
    · exact dkeys_dset_nodup h _ _

theorem hybridBFSLoop_gsm_nodup (g : GDB) :
    ∀ (fuel : Nat) (q V : List (String × Nat)) (GS : List (String × ℚ)),
      ((GS.map (fun p => p.1)).Nodup) →
      (((hybridBFSLoop g fuel q V GS).map (fun p => p.1)).Nodup) := by
  intro fuel
  induction fuel with
  | zero =>
    intro q V GS h
    cases q with
    | nil => exact h
    | cons e rest => exact h
  | succ fuel ih =>
    intro q V GS h
    cases q with
    | nil => exact h
    | cons e rest =>
      obtain ⟨nn, d⟩ := e
      rw [hybridBFSLoop]
      by_cases h2 : 2 < d
      · rw [if_pos h2]
        exact ih rest V GS h
      · rw [if_neg h2]
        by_cases hlt : d < 2
        · rw [if_pos hlt]
          by_cases hmem : nn ∈ nodeIds g
          · rw [if_pos hmem]
            exact ih _ _ _ (dkeys_dset_nodup h _ _)
          · rw [if_neg hmem]
            exact ih _ _ _ (dkeys_dset_nodup h _ _)
        · rw [if_neg hlt]
          exact ih _ _ _ (dkeys_dset_nodup h _ _)

theorem hybridGraphScores_keys_nodup (g : GDB) (S : List String) :
    ((hybridGraphScores g S).map (fun p => p.1)).Nodup := by
  show ((hybridBFSLoop g (S.length * (2 * g.edges.length + 1) ^ 3)
    (seedInit S).queue (seedInit S).visited (seedInit S).gsm).map
      (fun p => p.1)).Nodup
  refine hybridBFSLoop_gsm_nodup g _ _ _ _ ?_
  show (((S.foldl seedStep ⟨[], [], []⟩).gsm.map (fun p => p.1)).Nodup)
  exact seedFold_gsm_nodup S ⟨[], [], []⟩ (by simp)

theorem candFold_gs_zero :
    ∀ (l : List VectorSearchResult) (acc : List (String × CandData)),
      (∀ p ∈ acc, p.2.gs = 0) →
      ∀ p ∈ l.foldl (fun acc r =>
          dset r.node_id ⟨r.text, r.metadata, r.cosine_similarity, 0⟩ acc) acc,
        p.2.gs = 0 := by
  intro l
  induction l with
  | nil => intro acc h; exact h
  | cons r t ih =>
    intro acc h
    rw [List.foldl_cons]
    refine ih _ ?_
    intro p hp
    rcases mem_dset hp with h1 | h1
    · exact h p h1
    · rw [h1]

theorem candInit_gs_zero {vres : List VectorSearchResult} {nid : String}
    {dat : CandData} (h : dlookup (candInit vres) nid = some dat) :
    dat.gs = 0 :=
  candFold_gs_zero vres [] (by intro p hp; exact absurd hp (by simp))
    (nid, dat) (dlookup_mem h)

theorem candFold_keys_nodup :
    ∀ (l : List VectorSearchResult) (acc : List (String × CandData)),
      ((acc.map (fun p => p.1)).Nodup) →
      (((l.foldl (fun acc r =>
          dset r.node_id ⟨r.text, r.metadata, r.cosine_similarity, 0⟩ acc)
            acc).map (fun p => p.1)).Nodup) := by
  intro l
  induction l with
  | nil => intro acc h; exact h
  | cons r t ih =>
    intro acc h
    rw [List.foldl_cons]
    exact ih _ (dkeys_dset_nodup h _ _)

theorem candInit_keys_nodup (vres : List VectorSearchResult) :
    ((candInit vres).map (fun p => p.1)).Nodup :=
  candFold_keys_nodup vres [] (by simp)

theorem candFold_keys_mem :
    ∀ (l : List VectorSearchResult) (acc : List (String × CandData))
      (nid : String),
      nid ∈ (l.foldl (fun acc r =>
          dset r.node_id ⟨r.text, r.metadata, r.cosine_similarity, 0⟩ acc)
            acc).map (fun p => p.1) ↔
        nid ∈ acc.map (fun p => p.1) ∨ nid ∈ l.map (fun r => r.node_id) := by
  intro l
  induction l with
  | nil =>
    intro acc nid
    simp
  | cons r t ih =>
    intro acc nid
    rw [List.foldl_cons, ih]
    rw [mem_keys_dset]
    simp only [List.map_cons, List.mem_cons]
    constructor
    · intro h
      rcases h with (h | h) | h
      · exact Or.inl h
      · exact Or.inr (Or.inl h)
      · exact Or.inr (Or.inr h)
    · intro h
      rcases h with h | h | h
      · exact Or.inl (Or.inl h)
      · exact Or.inl (Or.inr h)
      · exact Or.inr h

theorem mem_candInit_keys (vres : List VectorSearchResult) (nid : String) :
    nid ∈ (candInit vres).map (fun p => p.1) ↔
      nid ∈ vres.map (fun r => r.node_id) := by
  have h := candFold_keys_mem vres [] nid
  simpa using h

/-- The full characterization of the combine loop of `hybrid_search`, by
induction over the (key-nodup) score map. -/
theorem combineGraph_spec (g : GDB) (hwf : Wf g) :
    ∀ (L : List (String × ℚ)) (fc : List (String × CandData)),
      ((L.map (fun p => p.1)).Nodup) →
      ∃ fc', combineGraph g L fc = .ok fc' ∧
        (∀ nid x dat, dlookup L nid = some x → dlookup fc nid = some dat →
          dlookup fc' nid = some ⟨dat.text, dat.metadata, dat.cos, x⟩) ∧
        (∀ nid x node, dlookup L nid = some x → dlookup fc nid = none →
          get_node g nid = .ok (some node) →
          dlookup fc' nid = some ⟨node.text, node.metadata, 0, x⟩) ∧
        (∀ nid x, dlookup L nid = some x → dlookup fc nid = none →
          get_node g nid = .ok none → dlookup fc' nid = none) ∧
        (∀ nid, dlookup L nid = none → dlookup fc' nid = dlookup fc nid) ∧
        ((fc.map (fun p => p.1)).Nodup → (fc'.map (fun p => p.1)).Nodup) := by
  intro L
  induction L with
  | nil =>
    intro fc _
    refine ⟨fc, rfl, ?_, ?_, ?_, fun nid _ => rfl, fun h => h⟩
    · intro nid x dat hL _
      exact absurd hL (by simp [dlookup])
    · intro nid x node hL _ _
      exact absurd hL (by simp [dlookup])
    · intro nid x hL _ _
      exact absurd hL (by simp [dlookup])
  | cons hd rest ih =>
    obtain ⟨nid0, x0⟩ := hd
    intro fc hnd
    rw [List.map_cons, List.nodup_cons] at hnd
    obtain ⟨hnot0, hndr⟩ := hnd
    have hL0 : dlookup rest nid0 = none := dlookup_eq_none_of_not_mem_keys hnot0
    cases hfc0 : dlookup fc nid0 with
    | some dat0 =>
      obtain ⟨fc', heq, h1, h2, h3, h5, h6⟩ :=
        ih (dset nid0 ⟨dat0.text, dat0.metadata, dat0.cos, x0⟩ fc) hndr
      refine ⟨fc', ?_, ?_, ?_, ?_, ?_, ?_⟩
      · show combineGraph g ((nid0, x0) :: rest) fc = .ok fc'
        rw [combineGraph, hfc0]
        exact heq
      · intro nid x dat hL hfc
        rw [dlookup_cons] at hL
        by_cases hn : nid0 = nid
        · rw [if_pos hn] at hL
          have hx : x0 = x := Option.some_inj.mp hL
          rw [← hn] at hfc
          rw [hfc0] at hfc
          have hdat : dat0 = dat := Option.some_inj.mp hfc
          have h5' := h5 nid0 hL0
          rw [dlookup_dset_self] at h5'
          rw [← hn, h5', hdat, hx]
        · rw [if_neg hn] at hL
          have hne : nid ≠ nid0 := fun hc => hn hc.symm
          exact h1 nid x dat hL (by rw [dlookup_dset_ne hne]; exact hfc)
      · intro nid x node hL hfc hgn
        rw [dlookup_cons] at hL
        by_cases hn : nid0 = nid
        · rw [← hn] at hfc
          rw [hfc0] at hfc
          exact absurd hfc (by simp)
        · rw [if_neg hn] at hL
          have hne : nid ≠ nid0 := fun hc => hn hc.symm
          exact h2 nid x node hL (by rw [dlookup_dset_ne hne]; exact hfc) hgn
      · intro nid x hL hfc hgn
        rw [dlookup_cons] at hL
        by_cases hn : nid0 = nid
        · rw [← hn] at hfc
          rw [hfc0] at hfc
          exact absurd hfc (by simp)
        · rw [if_neg hn] at hL
          have hne : nid ≠ nid0 := fun hc => hn hc.symm
          exact h3 nid x hL (by rw [dlookup_dset_ne hne]; exact hfc) hgn
      · intro nid hL
        rw [dlookup_cons] at hL
        by_cases hn : nid0 = nid
        · rw [if_pos hn] at hL
          exact absurd hL (by simp)
        · rw [if_neg hn] at hL
          have hne : nid ≠ nid0 := fun hc => hn hc.symm
          rw [h5 nid hL, dlookup_dset_ne hne]
      · intro hfcnd
        exact h6 (dkeys_dset_nodup hfcnd _ _)
    | none =>
      obtain ⟨o, hgn0⟩ := get_node_ok_of_wf hwf nid0
      cases o with
      | none =>
        obtain ⟨fc', heq, h1, h2, h3, h5, h6⟩ := ih fc hndr
        refine ⟨fc', ?_, ?_, ?_, ?_, ?_, h6⟩
        · show combineGraph g ((nid0, x0) :: rest) fc = .ok fc'
          rw [combineGraph, hfc0, hgn0]
          exact heq
        · intro nid x dat hL hfc
          rw [dlookup_cons] at hL
          by_cases hn : nid0 = nid
          · rw [← hn] at hfc
            rw [hfc0] at hfc
            exact absurd hfc (by simp)
          · rw [if_neg hn] at hL
            exact h1 nid x dat hL hfc
        · intro nid x node hL hfc hgn
          rw [dlookup_cons] at hL
          by_cases hn : nid0 = nid
          · exfalso
            rw [← hn] at hgn
            rw [hgn0] at hgn
            simp at hgn
          · rw [if_neg hn] at hL
            exact h2 nid x node hL hfc hgn
        · intro nid x hL hfc hgn
          rw [dlookup_cons] at hL
          by_cases hn : nid0 = nid
          · rw [← hn, h5 nid0 hL0]
            rw [← hn] at hfc
            exact hfc
          · rw [if_neg hn] at hL
            exact h3 nid x hL hfc hgn
        · intro nid hL
          rw [dlookup_cons] at hL
          by_cases hn : nid0 = nid
          · rw [if_pos hn] at hL
            exact absurd hL (by simp)
          · rw [if_neg hn] at hL
            exact h5 nid hL
      | some node0 =>
        have hset : fc ++ [(nid0, (⟨node0.text, node0.metadata, 0, x0⟩ : CandData))]
            = dset nid0 ⟨node0.text, node0.metadata, 0, x0⟩ fc := by
          refine (dset_not_mem_eq_append ?_ _).symm
          intro hc
          obtain ⟨w, hw⟩ := exists_dlookup_of_any ((any_keys_iff nid0 fc).mpr hc)
          rw [hfc0] at hw
          exact Option.noConfusion hw
        obtain ⟨fc', heq, h1, h2, h3, h5, h6⟩ :=
          ih (dset nid0 ⟨node0.text, node0.metadata, 0, x0⟩ fc) hndr
        refine ⟨fc', ?_, ?_, ?_, ?_, ?_, ?_⟩
        · show combineGraph g ((nid0, x0) :: rest) fc = .ok fc'
          rw [combineGraph, hfc0, hgn0]
          rw [← hset] at heq
          exact heq
        · intro nid x dat hL hfc
          rw [dlookup_cons] at hL
          by_cases hn : nid0 = nid
          · rw [← hn] at hfc
            rw [hfc0] at hfc
            exact absurd hfc (by simp)
          · rw [if_neg hn] at hL
            have hne : nid ≠ nid0 := fun hc => hn hc.symm
            exact h1 nid x dat hL (by rw [dlookup_dset_ne hne]; exact hfc)
        · intro nid x node hL hfc hgn
          rw [dlookup_cons] at hL
          by_cases hn : nid0 = nid
          · rw [if_pos hn] at hL
            have hx : x0 = x := Option.some_inj.mp hL
            rw [← hn] at hgn
            rw [hgn0] at hgn
            simp only [Except.ok.injEq, Option.some.injEq] at hgn
            have h5' := h5 nid0 hL0
            rw [dlookup_dset_self] at h5'
            rw [← hn, h5', hgn, hx]
          · rw [if_neg hn] at hL
            have hne : nid ≠ nid0 := fun hc => hn hc.symm
            exact h2 nid x node hL (by rw [dlookup_dset_ne hne]; exact hfc) hgn
        · intro nid x hL hfc hgn
          rw [dlookup_cons] at hL
          by_cases hn : nid0 = nid
          · exfalso
            rw [← hn] at hgn
            rw [hgn0] at hgn
            simp at hgn
          · rw [if_neg hn] at hL
            have hne : nid ≠ nid0 := fun hc => hn hc.symm
            exact h3 nid x hL (by rw [dlookup_dset_ne hne]; exact hfc) hgn
        · intro nid hL
          rw [dlookup_cons] at hL
          by_cases hn : nid0 = nid
          · rw [if_pos hn] at hL
            exact absurd hL (by simp)
          · rw [if_neg hn] at hL
            have hne : nid ≠ nid0 := fun hc => hn hc.symm
            rw [h5 nid hL, dlookup_dset_ne hne]
        · intro hfcnd
          exact h6 (dkeys_dset_nodup hfcnd _ _)

/-- The similarity a node contributes to the fusion: its (last) candidate
entry, defaulting to `0`. -/
def simOf (vres : List VectorSearchResult) (nid : String) : ℚ :=
  match dlookup (candInit vres) nid with
  | some dat => dat.cos
  | none => 0

/-- The graph score a node contributes to the fusion: its `graph_scores_map`
entry, defaulting to `0`. -/
def gsOf (g : GDB) (vres : List VectorSearchResult) (nid : String) : ℚ :=
  match dlookup (hybridGraphScores g (vres.map (fun r => r.node_id))) nid with
  | some x => x
  | none => 0

theorem finalize_keys (vw gw : ℚ) (fc : List (String × CandData)) :
    (finalize vw gw fc).map (fun r => r.node_id) = fc.map (fun p => p.1) := by
  unfold finalize
  rw [List.map_map]
  rfl

theorem mergeSort_pair {α : Type} (le : α → α → Bool) (a b : α)
    (h : le a b = true) : List.mergeSort [a, b] le = [a, b] := by
  rw [List.mergeSort]
  simp [List.mergeSort, List.merge, h]

/-- Claim C2 counterexample: on the EMPTY graph, the single candidate `a`
(similarity `0.9`, weights `0.6`/`0.4`) is a seed id absent from the graph;
its graph score is `1.0`, not `0`, so its final score is `0.94`, not the
`0.54` the claimed contribution of `0` would give. -/
theorem claim2_cex :
    ∃ r : HybridResult,
      hybrid_search GDB.empty [⟨"a", "tx", 9 / 10, []⟩] (3 / 5) (2 / 5) 5
          = .ok [r] ∧
        r.node_id = "a" ∧ r.graph_score = 1 ∧ r.final_score = 47 / 50 ∧
        ¬ r.final_score = 27 / 50 := by
  have hgs : pyRound4 (bucket 0) = 1 := by
    have h := pyRound4_of 10000 (bucket 0) (by norm_num [bucket])
    rw [h]
    norm_num
  have hfs : pyRound4 (9 / 10 * (3 / 5) + bucket 0 * (2 / 5)) = 47 / 50 := by
    have h := pyRound4_of 9400 (9 / 10 * (3 / 5) + bucket 0 * (2 / 5))
      (by norm_num [bucket])
    rw [h]
    norm_num
  refine ⟨⟨"a", "tx", pyRound4 (9 / 10), pyRound4 (bucket 0),
    pyRound4 (9 / 10 * (3 / 5) + bucket 0 * (2 / 5)), []⟩, ?_, rfl, hgs, hfs, ?_⟩
  · have h1 : hybrid_search GDB.empty [⟨"a", "tx", 9 / 10, []⟩] (3 / 5) (2 / 5) 5
        = .ok ((List.mergeSort [(⟨"a", "tx", pyRound4 (9 / 10), pyRound4 (bucket 0),
            pyRound4 (9 / 10 * (3 / 5) + bucket 0 * (2 / 5)), []⟩ : HybridResult)]
              hsLE).take 5) := rfl
    rw [h1, List.mergeSort_singleton]
    rfl
  · show ¬ pyRound4 (9 / 10 * (3 / 5) + bucket 0 * (2 / 5)) = 27 / 50
    rw [hfs]
    norm_num

/-- Claim C2 corrected: on a well-formed graph, a seed id absent from the
graph receives graph score `1.0` (it is seeded at hop 0 and scored through
the hop-0 bucket), not `0`; it is indeed never expanded — no node other than
itself is reachable from it by any walk. -/
theorem claim2_corrected (g : GDB) (S : List String)
    (hwf : ∀ e ∈ g.edges, e.source ∈ nodeIds g ∧ e.target ∈ nodeIds g)
    (s : String) (hs : s ∈ S) (habs : s ∉ nodeIds g) :
    dlookup (hybridGraphScores g S) s = some 1 ∧
    (∀ n k, ReachU g s n k → n = s ∧ k = 0) := by
  have hnb : nbrs g s = [] := by
    rcases h : nbrs g s with _ | ⟨v, t⟩
    · rfl
    · exact absurd (mem_nodeIds_of_nbrs hwf
        (show v ∈ nbrs g s by rw [h]; simp)) habs
  constructor
  · obtain ⟨hsound, hcompl⟩ := hybridGraphScores_spec g S hwf s
    obtain ⟨x, hx⟩ := hcompl ⟨0, by omega, s, hs, ReachU.refl⟩
    obtain ⟨d, _, hmin, _, hxb⟩ := hsound x hx
    have hd0 : d = 0 := Nat.le_zero.mp (hmin 0 ⟨s, hs, ReachU.refl⟩)
    rw [hx, hxb, hd0]
    norm_num [bucket]
  · intro n k hw
    induction hw with
    | refl => exact ⟨rfl, rfl⟩
    | @snoc m v k hprev hstep ih =>
      obtain ⟨hm, _⟩ := ih
      rw [hm, hnb] at hstep
      exact absurd hstep (by simp)

/-- Claim C2 witness: the corrected behavior at the empty graph with seed
`a`. -/
theorem claim2_wit :
    ((∀ e ∈ GDB.empty.edges,
        e.source ∈ nodeIds GDB.empty ∧ e.target ∈ nodeIds GDB.empty) ∧
      "a" ∈ ["a"] ∧ "a" ∉ nodeIds GDB.empty) ∧
    (dlookup (hybridGraphScores GDB.empty ["a"]) "a" = some 1 ∧
      (∀ n k, ReachU GDB.empty "a" n k → n = "a" ∧ k = 0)) :=
  ⟨⟨by decide, by decide, by decide⟩,
    claim2_corrected GDB.empty ["a"] (by decide) "a" (by decide) (by decide)⟩

/-- Claim C5 scenario graph: nodes `A`, `B` and the single edge `A → B`
with weight `1.0`. -/
def scenario5Graph : GDB :=
  ⟨[("A", ⟨some "tA", some [], none⟩), ("B", ⟨some "tB", some [], none⟩)],
   [⟨"A", "B", 0, "e1", "rel", 1⟩],
   [("e1", ("A", "B", 0))]⟩

/-- Claim C5: on a well-formed graph the fusion result is, up to the `top_k`
truncation, a list sorted descending by final score whose id set is the
union of the candidate ids and the graph nodes within 2 hops of a seed, with
each final score `similarity·vector_weight + graph_score·graph_weight`
(missing similarity and missing graph score default to `0`) rounded to 4
places; and the concrete scenario — candidates `[(A, 0.9)]`, edge `A → B`,
weights `0.6/0.4` — fuses to `A = 0.94`, `B = 0.40`. -/
theorem claim5_fusion_pipeline (g : GDB) (hwf : Wf g)
    (vres : List VectorSearchResult) (vw gw : ℚ) (top_k : Nat) :
    (∃ full : List HybridResult,
      hybrid_search g vres vw gw top_k = .ok (full.take top_k) ∧
      List.Pairwise (fun a b => b.final_score ≤ a.final_score) full ∧
      ((full.map (fun r => r.node_id)).Nodup) ∧
      (∀ nid, nid ∈ full.map (fun r => r.node_id) ↔
        (nid ∈ vres.map (fun r => r.node_id) ∨
          (nid ∈ nodeIds g ∧
            ∃ k, k ≤ 2 ∧ mreach g (vres.map (fun r => r.node_id)) nid k))) ∧
      (∀ r ∈ full, r.final_score
        = pyRound4 (simOf vres r.node_id * vw + gsOf g vres r.node_id * gw))) ∧
    (∃ rA rB : HybridResult,
      hybrid_search scenario5Graph [⟨"A", "tA", 9 / 10, []⟩] (3 / 5) (2 / 5) 10
          = .ok [rA, rB] ∧
      rA.node_id = "A" ∧ rA.final_score = 47 / 50 ∧
      rB.node_id = "B" ∧ rB.final_score = 2 / 5) := by
  constructor
  · have hewf : ∀ e ∈ g.edges, e.source ∈ nodeIds g ∧ e.target ∈ nodeIds g :=
      fun e he => (hwf.2.2.1 e he).2
    obtain ⟨fc', hcomb, h1, h2, h3, h5, h6⟩ := combineGraph_spec g hwf
      (hybridGraphScores g (vres.map (fun r => r.node_id))) (candInit vres)
      (hybridGraphScores_keys_nodup g _)
    have hfcnd : (fc'.map (fun p => p.1)).Nodup := h6 (candInit_keys_nodup vres)
    have hspec := hybridGraphScores_spec g (vres.map (fun r => r.node_id)) hewf
    refine ⟨(finalize vw gw fc').mergeSort hsLE, ?_, ?_, ?_, ?_, ?_⟩
    · show hybrid_search g vres vw gw top_k = _
      unfold hybrid_search
      rw [hcomb]
    · have htrans : ∀ a b c : HybridResult,
          hsLE a b = true → hsLE b c = true → hsLE a c = true := by
        intro a b c hab hbc
        simp only [hsLE, decide_eq_true_eq] at hab hbc ⊢
        exact le_trans hbc hab
      have htotal : ∀ a b : HybridResult, (hsLE a b || hsLE b a) = true := by
        intro a b
        simp only [hsLE, Bool.or_eq_true, decide_eq_true_eq]
        exact le_total b.final_score a.final_score
      have hp := List.sorted_mergeSort htrans htotal (finalize vw gw fc')
      exact hp.imp (fun hab => by simpa [hsLE] using hab)
    · have hperm := List.mergeSort_perm (finalize vw gw fc') hsLE
      have hmap := hperm.map (fun r : HybridResult => r.node_id)
      rw [finalize_keys] at hmap
      exact (hmap.nodup_iff).mpr hfcnd
    · intro nid
      have hmem1 : nid ∈ ((finalize vw gw fc').mergeSort hsLE).map
          (fun r => r.node_id) ↔ nid ∈ fc'.map (fun p => p.1) := by
        have hperm := List.mergeSort_perm (finalize vw gw fc') hsLE
        have hmap := hperm.map (fun r : HybridResult => r.node_id)
        rw [finalize_keys] at hmap
        exact hmap.mem_iff
      rw [hmem1]
      obtain ⟨hsound, hcompl⟩ := hspec nid
      constructor
      · intro hin
        obtain ⟨w, hw⟩ := exists_dlookup_of_any ((any_keys_iff nid fc').mpr hin)
        cases hgsm : dlookup
            (hybridGraphScores g (vres.map (fun r => r.node_id))) nid with
        | none =>
          have h5' := h5 nid hgsm
          rw [hw] at h5'
          left
          rw [← mem_candInit_keys]
          exact dlookup_some_mem_keys h5'.symm
        | some x =>
          cases hc : dlookup (candInit vres) nid with
          | some dat =>
            left
            rw [← mem_candInit_keys]
            exact dlookup_some_mem_keys hc
          | none =>
            by_cases hpres : nid ∈ nodeIds g
            · right
              refine ⟨hpres, ?_⟩
              obtain ⟨d, hreach, _, hd2, _⟩ := hsound x hgsm
              exact ⟨d, hd2, hreach⟩
            · exfalso
              have h3' := h3 nid x hgsm hc (get_node_of_absent hpres)
              rw [hw] at h3'
              exact Option.noConfusion h3'
      · intro hin
        rcases hin with hin | ⟨hpres, k, hk2, hreach⟩
        · rw [← mem_candInit_keys] at hin
          obtain ⟨dat, hdat⟩ := exists_dlookup_of_any
            ((any_keys_iff nid (candInit vres)).mpr hin)
          cases hgsm : dlookup
              (hybridGraphScores g (vres.map (fun r => r.node_id))) nid with
          | none =>
            have h5' := h5 nid hgsm
            rw [hdat] at h5'
            exact dlookup_some_mem_keys h5'
          | some x =>
            exact dlookup_some_mem_keys (h1 nid x dat hgsm hdat)
        · obtain ⟨x, hx⟩ := hcompl ⟨k, hk2, hreach⟩
          cases hc : dlookup (candInit vres) nid with
          | some dat =>
            exact dlookup_some_mem_keys (h1 nid x dat hx hc)
          | none =>
            obtain ⟨node, hnode⟩ := get_node_of_present_wf hwf hpres
            exact dlookup_some_mem_keys (h2 nid x node hx hc hnode)
    · intro r hr
      rw [List.mem_mergeSort] at hr
      unfold finalize at hr
      obtain ⟨p, hp, hpr⟩ := List.mem_map.mp hr
      have hlook : dlookup fc' p.1 = some p.2 := dlookup_of_mem_nodup hfcnd hp
      have hkey : p.2.cos = simOf vres p.1 ∧ p.2.gs = gsOf g vres p.1 := by
        cases hgsm : dlookup
            (hybridGraphScores g (vres.map (fun r => r.node_id))) p.1 with
        | none =>
          have h5' := h5 p.1 hgsm
          rw [hlook] at h5'
          constructor
          · show p.2.cos = simOf vres p.1
            unfold simOf
            rw [← h5']
          · show p.2.gs = gsOf g vres p.1
            unfold gsOf
            rw [hgsm]
            exact candInit_gs_zero h5'.symm
        | some x =>
          cases hc : dlookup (candInit vres) p.1 with
          | some dat =>
            have h1' := h1 p.1 x dat hgsm hc
            rw [hlook] at h1'
            have hp2 : p.2 = ⟨dat.text, dat.metadata, dat.cos, x⟩ :=
              Option.some_inj.mp h1'
            constructor
            · unfold simOf
              rw [hc, hp2]
            · unfold gsOf
              rw [hgsm, hp2]
          | none =>
            by_cases hpres : p.1 ∈ nodeIds g
            · obtain ⟨node, hnode⟩ := get_node_of_present_wf hwf hpres
              have h2' := h2 p.1 x node hgsm hc hnode
              rw [hlook] at h2'
              have hp2 : p.2 = ⟨node.text, node.metadata, 0, x⟩ :=
                Option.some_inj.mp h2'
              constructor
              · unfold simOf
                rw [hc, hp2]
              · unfold gsOf
                rw [hgsm, hp2]
            · exfalso
              have h3' := h3 p.1 x hgsm hc (get_node_of_absent hpres)
              rw [hlook] at h3'
              exact Option.noConfusion h3'
      rw [← hpr]
      show pyRound4 (p.2.cos * vw + p.2.gs * gw)
        = pyRound4 (simOf vres p.1 * vw + gsOf g vres p.1 * gw)
      rw [hkey.1, hkey.2]
  · have hfA : pyRound4 (9 / 10 * (3 / 5) + bucket 0 * (2 / 5)) = 47 / 50 := by
      have h := pyRound4_of 9400 (9 / 10 * (3 / 5) + bucket 0 * (2 / 5))
        (by norm_num [bucket])
      rw [h]
      norm_num
    have hfB : pyRound4 (0 * (3 / 5) + bucket 1 * (2 / 5)) = 2 / 5 := by
      have h := pyRound4_of 4000 (0 * (3 / 5) + bucket 1 * (2 / 5))
        (by norm_num [bucket])
      rw [h]
      norm_num
    have hle : hsLE (⟨"A", "tA", pyRound4 (9 / 10), pyRound4 (bucket 0),
        pyRound4 (9 / 10 * (3 / 5) + bucket 0 * (2 / 5)), []⟩ : HybridResult)
        (⟨"B", "tB", pyRound4 0, pyRound4 (bucket 1),
          pyRound4 (0 * (3 / 5) + bucket 1 * (2 / 5)), []⟩ : HybridResult)
        = true := by
      simp only [hsLE, decide_eq_true_eq]
      show pyRound4 (0 * (3 / 5) + bucket 1 * (2 / 5))
        ≤ pyRound4 (9 / 10 * (3 / 5) + bucket 0 * (2 / 5))
      rw [hfA, hfB]
      norm_num
    refine ⟨⟨"A", "tA", pyRound4 (9 / 10), pyRound4 (bucket 0),
      pyRound4 (9 / 10 * (3 / 5) + bucket 0 * (2 / 5)), []⟩,
      ⟨"B", "tB", pyRound4 0, pyRound4 (bucket 1),
        pyRound4 (0 * (3 / 5) + bucket 1 * (2 / 5)), []⟩, ?_, rfl, hfA, rfl, hfB⟩
    have h1 : hybrid_search scenario5Graph [⟨"A", "tA", 9 / 10, []⟩]
        (3 / 5) (2 / 5) 10
        = .ok ((List.mergeSort
            [(⟨"A", "tA", pyRound4 (9 / 10), pyRound4 (bucket 0),
              pyRound4 (9 / 10 * (3 / 5) + bucket 0 * (2 / 5)), []⟩ : HybridResult),
             (⟨"B", "tB", pyRound4 0, pyRound4 (bucket 1),
              pyRound4 (0 * (3 / 5) + bucket 1 * (2 / 5)), []⟩ : HybridResult)]
            hsLE).take 10) := rfl
    rw [h1, mergeSort_pair hsLE _ _ hle]
    rfl

/-- Claim C5 witness: the fusion pipeline characterization applied to the
scenario graph with its candidate list and weights. -/
theorem claim5_wit :
    Wf scenario5Graph ∧
    ((∃ full : List HybridResult,
      hybrid_search scenario5Graph [⟨"A", "tA", 9 / 10, []⟩] (3 / 5) (2 / 5) 10
          = .ok (full.take 10) ∧
      List.Pairwise (fun a b => b.final_score ≤ a.final_score) full ∧
      ((full.map (fun r => r.node_id)).Nodup) ∧
      (∀ nid, nid ∈ full.map (fun r => r.node_id) ↔
        (nid ∈ [(⟨"A", "tA", 9 / 10, []⟩ : VectorSearchResult)].map
            (fun r => r.node_id) ∨
          (nid ∈ nodeIds scenario5Graph ∧
            ∃ k, k ≤ 2 ∧ mreach scenario5Graph
              ([(⟨"A", "tA", 9 / 10, []⟩ : VectorSearchResult)].map
                (fun r => r.node_id)) nid k))) ∧
      (∀ r ∈ full, r.final_score
        = pyRound4 (simOf [(⟨"A", "tA", 9 / 10, []⟩ : VectorSearchResult)]
              r.node_id * (3 / 5)
            + gsOf scenario5Graph [(⟨"A", "tA", 9 / 10, []⟩ : VectorSearchResult)]
              r.node_id * (2 / 5)))) ∧
    (∃ rA rB : HybridResult,
      hybrid_search scenario5Graph [⟨"A", "tA", 9 / 10, []⟩] (3 / 5) (2 / 5) 10
          = .ok [rA, rB] ∧
      rA.node_id = "A" ∧ rA.final_score = 47 / 50 ∧
      rB.node_id = "B" ∧ rB.final_score = 2 / 5)) :=
  ⟨by decide, claim5_fusion_pipeline scenario5Graph (by decide)
    [⟨"A", "tA", 9 / 10, []⟩] (3 / 5) (2 / 5) 10⟩

/-!  `GraphDatabase.compute_graph_scores` (`graph_db/graph_db.py` 387-449):
weighted breadth-first relevance scoring. -/

/-- A relevance score: the start node's `float('inf')` sentinel, or a finite
rational. -/
inductive Sc where
  | inf : Sc
  | fin : ℚ → Sc
deriving DecidableEq

/-- The weighted expansion pairs of a node: `(neighbor, edge weight)` for
every parallel outgoing edge, then for every parallel incoming edge. -/
def incPairs (g : GDB) (n : String) : List (String × ℚ) :=
  (g.edges.filter (fun e => e.source == n)).map (fun e => (e.target, e.weight))
    ++ (g.edges.filter (fun e => e.target == n)).map
        (fun e => (e.source, e.weight))

/-- The score assigned at hop `h` with accumulated weight `w`. -/
def scoreOf (h : Nat) (w : ℚ) : Sc :=
  if h = 0 then Sc.inf else Sc.fin (w / (h : ℚ))

/-- The visited-update test: unvisited, or a strictly better pair (fewer
hops, or equally many hops and strictly more weight). -/
def improves (V : List (String × (Nat × ℚ))) (n : String) (h : Nat)
    (w : ℚ) : Bool :=
  match dlookup V n with
  | none => true
  | some p => decide (h < p.1 ∨ (h = p.1 ∧ p.2 < w))

/-- The scoring loop: pop `(node, hop, weight)`, drop it past `depth`,
update `visited`/`scores` when the pair improves, and expand over all
incident parallel edges while `hop < depth`. -/
def bfsScores (g : GDB) (depth : Nat) :
    Nat → List (String × Nat × ℚ) → List (String × (Nat × ℚ)) →
      List (String × Sc) → List (String × Sc)
  | _, [], _, S => S
  | 0, _ :: _, _, S => S
  | fuel + 1, (n, h, w) :: rest, V, S =>
    if depth < h then bfsScores g depth fuel rest V S
    else if improves V n h w then
      if h < depth then
        bfsScores g depth fuel
          (rest ++ (incPairs g n).map (fun p => (p.1, h + 1, w + p.2)))
          (dset n (h, w) V) (dset n (scoreOf h w) S)
      else bfsScores g depth fuel rest (dset n (h, w) V) (dset n (scoreOf h w) S)
    else bfsScores g depth fuel rest V S

/-- `compute_graph_scores(start_id, depth)`: `{}` for an absent start,
otherwise the BFS from `(start, 0, 0)`. -/
def compute_graph_scores (g : GDB) (start : String) (depth : Nat) :
    List (String × Sc) :=
  if start ∈ nodeIds g then
    bfsScores g depth ((2 * g.edges.length + 1) ^ (depth + 1))
      [(start, 0, 0)] [] []
  else []

/-- A weighted undirected walk: `ReachW g s n k w` holds when a walk of `k`
edge traversals from `s` reaches `n` with total weight `w`. -/
inductive ReachW (g : GDB) (s : String) : String → Nat → ℚ → Prop where
  | refl : ReachW g s s 0 0
  | snoc {m v : String} {k : Nat} {w wt : ℚ} :
      ReachW g s m k w → (v, wt) ∈ incPairs g m → ReachW g s v (k + 1) (w + wt)

/-- `p` is at least as good as `q`: strictly fewer hops, or equally many
hops and at least the weight. -/
def pairLE (p q : Nat × ℚ) : Prop :=
  p.1 < q.1 ∨ (p.1 = q.1 ∧ q.2 ≤ p.2)

theorem pairLE_refl (p : Nat × ℚ) : pairLE p p := Or.inr ⟨rfl, le_refl _⟩

theorem pairLE_trans {p q r : Nat × ℚ} (h1 : pairLE p q) (h2 : pairLE q r) :
    pairLE p r := by
  unfold pairLE at h1 h2 ⊢
  rcases h1 with h1 | ⟨h1a, h1b⟩
  · rcases h2 with h2 | ⟨h2a, h2b⟩
    · exact Or.inl (by omega)
    · exact Or.inl (by omega)
  · rcases h2 with h2 | ⟨h2a, h2b⟩
    · exact Or.inl (by omega)
    · exact Or.inr ⟨by omega, le_trans h2b h1b⟩

theorem pairLE_ext {a c : Nat} {b d : ℚ} (h : pairLE (a, b) (c, d)) (wt : ℚ) :
    pairLE (a + 1, b + wt) (c + 1, d + wt) := by
  unfold pairLE at h ⊢
  dsimp only at h ⊢
  rcases h with h | ⟨h1, h2⟩
  · exact Or.inl (by omega)
  · exact Or.inr ⟨by omega, add_le_add_right h2 wt⟩

theorem improves_false {V : List (String × (Nat × ℚ))} {n : String} {h : Nat}
    {w : ℚ} (he : improves V n h w = false) :
    ∃ p, dlookup V n = some p ∧ pairLE p (h, w) := by
  unfold improves at he
  cases hV : dlookup V n with
  | none =>
    rw [hV] at he
    exact absurd he (by simp)
  | some p =>
    rw [hV] at he
    refine ⟨p, rfl, ?_⟩
    simp only [decide_eq_false_iff_not] at he
    push_neg at he
    unfold pairLE
    dsimp only
    rcases Nat.lt_or_ge p.1 h with h1 | h1
    · exact Or.inl h1
    · have h2 : p.1 = h := by omega
      exact Or.inr ⟨h2, he.2 h2.symm⟩

theorem improves_true {V : List (String × (Nat × ℚ))} {n : String} {h : Nat}
    {w : ℚ} {p0 : Nat × ℚ} (he : improves V n h w = true)
    (hV : dlookup V n = some p0) : h < p0.1 ∨ (h = p0.1 ∧ p0.2 < w) := by
  unfold improves at he
  rw [hV] at he
  simpa using he

theorem pairLE_of_strict {h : Nat} {w : ℚ} {p : Nat × ℚ}
    (hs : h < p.1 ∨ (h = p.1 ∧ p.2 < w)) : pairLE (h, w) p := by
  unfold pairLE
  dsimp only
  rcases hs with hs | ⟨h1, h2⟩
  · exact Or.inl hs
  · exact Or.inr ⟨h1, le_of_lt h2⟩

theorem reachW_zero {g : GDB} {s n : String} {w : ℚ}
    (h : ReachW g s n 0 w) : n = s ∧ w = 0 := by
  cases h
  exact ⟨rfl, rfl⟩

theorem incPairs_weight_nonneg {g : GDB} (hw : ∀ e ∈ g.edges, 0 ≤ e.weight)
    {n v : String} {wt : ℚ} (h : (v, wt) ∈ incPairs g n) : 0 ≤ wt := by
  unfold incPairs at h
  rcases List.mem_append.mp h with h1 | h1
  · obtain ⟨e, he, heq⟩ := List.mem_map.mp h1
    have hwt : e.weight = wt := congrArg Prod.snd heq
    rw [← hwt]
    exact hw e (List.mem_of_mem_filter he)
  · obtain ⟨e, he, heq⟩ := List.mem_map.mp h1
    have hwt : e.weight = wt := congrArg Prod.snd heq
    rw [← hwt]
    exact hw e (List.mem_of_mem_filter he)

theorem reachW_nonneg {g : GDB} (hw : ∀ e ∈ g.edges, 0 ≤ e.weight)
    {s n : String} {k : Nat} {w : ℚ} (h : ReachW g s n k w) : 0 ≤ w := by
  induction h with
  | refl => exact le_refl 0
  | snoc hprev hstep ih => exact add_nonneg ih (incPairs_weight_nonneg hw hstep)

theorem incPairs_length_le (g : GDB) (n : String) :
    (incPairs g n).length ≤ 2 * g.edges.length := by
  unfold incPairs
  rw [List.length_append, List.length_map, List.length_map]
  have h1 := List.length_filter_le (fun e : EdgeRec => e.source == n) g.edges
  have h2 := List.length_filter_le (fun e : EdgeRec => e.target == n) g.edges
  omega

/-- The specification of `compute_graph_scores`: every scored node carries
the score of its best pair (fewest hops first, then most weight), the best
pair is within `depth`, and every node reachable within `depth` is
scored. -/
def WScoresSpec (g : GDB) (s : String) (depth : Nat)
    (S : List (String × Sc)) : Prop :=
  ∀ n,
    (∀ x, dlookup S n = some x →
      ∃ p : Nat × ℚ, ReachW g s n p.1 p.2 ∧ p.1 ≤ depth ∧
        (∀ k w', ReachW g s n k w' → pairLE p (k, w')) ∧
        x = scoreOf p.1 p.2) ∧
    ((∃ k w', k ≤ depth ∧ ReachW g s n k w') → ∃ x, dlookup S n = some x)

/-- Harvest of the scoring BFS at an empty queue. -/
theorem wscores_harvest (g : GDB) (s : String) (depth : Nat)
    (V : List (String × (Nat × ℚ))) (S : List (String × Sc))
    (hB : ∀ n p, dlookup V n = some p → ReachW g s n p.1 p.2 ∧ p.1 ≤ depth)
    (hC : dlookup V s = some (0, 0))
    (hSync : ∀ n, dlookup S n
      = Option.map (fun p : Nat × ℚ => scoreOf p.1 p.2) (dlookup V n))
    (hF : ∀ n p, dlookup V n = some p → p.1 < depth →
      ∀ q' ∈ incPairs g n,
        ((q'.1, p.1 + 1, p.2 + q'.2) ∈ ([] : List (String × Nat × ℚ))) ∨
        (∃ p', dlookup V q'.1 = some p' ∧ pairLE p' (p.1 + 1, p.2 + q'.2))) :
    WScoresSpec g s depth S := by
  have hcomp : ∀ n k w, ReachW g s n k w → k ≤ depth →
      ∃ p, dlookup V n = some p ∧ pairLE p (k, w) := by
    intro n k w hwlk
    induction hwlk with
    | refl =>
      intro _
      exact ⟨(0, 0), hC, pairLE_refl _⟩
    | @snoc m v k' w' wt hprev hstep ih =>
      intro hk
      obtain ⟨pm, hVm, hle⟩ := ih (by omega)
      have hpm : pm.1 ≤ k' := by
        rcases hle with h | h
        · omega
        · omega
      rcases hF m pm hVm (by omega) (v, wt) hstep with hq | ⟨p', hVv, hle2⟩
      · exact absurd hq (by simp)
      · exact ⟨p', hVv, pairLE_trans hle2 (pairLE_ext hle wt)⟩
  intro n
  constructor
  · intro x hx
    rw [hSync n] at hx
    cases hV : dlookup V n with
    | none =>
      rw [hV] at hx
      exact absurd hx (by simp)
    | some p =>
      rw [hV] at hx
      have hxe : x = scoreOf p.1 p.2 := (Option.some_inj.mp hx).symm
      obtain ⟨hre, hdep⟩ := hB n p hV
      refine ⟨p, hre, hdep, ?_, hxe⟩
      intro k w' hwlk
      by_cases hk : k ≤ depth
      · obtain ⟨p2, hV2, hle⟩ := hcomp n k w' hwlk hk
        rw [hV] at hV2
        have hp2 : p = p2 := Option.some_inj.mp hV2
        rw [hp2]
        exact hle
      · exact Or.inl (by omega)
  · rintro ⟨k, w', hk, hwlk⟩
    obtain ⟨p, hV, _⟩ := hcomp n k w' hwlk hk
    rw [hSync n, hV]
    exact ⟨scoreOf p.1 p.2, rfl⟩

/-- Invariant induction for the scoring BFS loop. -/
theorem bfsScores_correct (g : GDB) (s : String) (depth : Nat) :
    ∀ (fuel : Nat) (q : List (String × Nat × ℚ))
      (V : List (String × (Nat × ℚ))) (S : List (String × Sc)),
      (∀ e ∈ q, ReachW g s e.1 e.2.1 e.2.2) →
      (∀ e ∈ q, 1 ≤ e.2.1) →
      (∀ n p, dlookup V n = some p → ReachW g s n p.1 p.2 ∧ p.1 ≤ depth) →
      dlookup V s = some (0, 0) →
      (∀ n, dlookup S n
        = Option.map (fun p : Nat × ℚ => scoreOf p.1 p.2) (dlookup V n)) →
      (∀ n p, dlookup V n = some p → p.1 < depth →
        ∀ q' ∈ incPairs g n,
          ((q'.1, p.1 + 1, p.2 + q'.2) ∈ q) ∨
          (∃ p', dlookup V q'.1 = some p' ∧ pairLE p' (p.1 + 1, p.2 + q'.2))) →
      qMeasure (2 * g.edges.length + 1) depth (q.map (fun e => e.2.1)) ≤ fuel →
      WScoresSpec g s depth (bfsScores g depth fuel q V S) := by
  intro fuel
  induction fuel with
  | zero =>
    intro q V S hA hPos hB hC hSync hF hfuel
    cases q with
    | nil =>
      show WScoresSpec g s depth S
      exact wscores_harvest g s depth V S hB hC hSync hF
    | cons e rest =>
      exfalso
      obtain ⟨n, h, w⟩ := e
      rw [List.map_cons, qMeasure_cons] at hfuel
      have hfuel2 : (2 * g.edges.length + 1) ^ (depth + 1 - h)
          + qMeasure (2 * g.edges.length + 1) depth
              (rest.map (fun e => e.2.1)) ≤ 0 := hfuel
      have hp : 0 < (2 * g.edges.length + 1) ^ (depth + 1 - h) :=
        Nat.pos_pow_of_pos _ (by omega)
      omega
  | succ fuel ih =>
    intro q V S hA hPos hB hC hSync hF hfuel
    cases q with
    | nil =>
      show WScoresSpec g s depth S
      exact wscores_harvest g s depth V S hB hC hSync hF
    | cons e rest =>
      obtain ⟨n, h, w⟩ := e
      have hB1 : 1 ≤ 2 * g.edges.length + 1 := by omega
      rw [bfsScores]
      have hfl0 : qMeasure (2 * g.edges.length + 1) depth
          (rest.map (fun e => e.2.1)) ≤ fuel := by
        have h1 := qMeasure_tail_lt hB1 depth h (rest.map (fun e => e.2.1))
        have h2 : qMeasure (2 * g.edges.length + 1) depth
            (h :: rest.map (fun e => e.2.1)) ≤ fuel + 1 := hfuel
        omega
      by_cases hskip : depth < h
      · rw [if_pos hskip]
        refine ih rest V S (fun e' he' => hA e' (by simp [he']))
          (fun e' he' => hPos e' (by simp [he'])) hB hC hSync ?_ hfl0
        intro m p hV hplt q' hq'
        rcases hF m p hV hplt q' hq' with hmem | hcov
        · rcases List.mem_cons.mp hmem with heq | h2
          · exfalso
            have e2 : p.1 + 1 = h :=
              congrArg (fun t : String × Nat × ℚ => t.2.1) heq
            omega
          · exact Or.inl h2
        · exact Or.inr hcov
      · rw [if_neg hskip]
        have hh : h ≤ depth := by omega
        have hre : ReachW g s n h w := hA (n, h, w) (by simp)
        cases himp : improves V n h w with
        | false =>
          rw [if_neg (by simp : ¬ (false = true))]
          obtain ⟨p0, hV0, hle0⟩ := improves_false himp
          refine ih rest V S (fun e' he' => hA e' (by simp [he']))
            (fun e' he' => hPos e' (by simp [he'])) hB hC hSync ?_ hfl0
          intro m p hV hplt q' hq'
          rcases hF m p hV hplt q' hq' with hmem | hcov
          · rcases List.mem_cons.mp hmem with heq | h2
            · right
              have e1 : q'.1 = n :=
                congrArg (fun t : String × Nat × ℚ => t.1) heq
              have e2 : p.1 + 1 = h :=
                congrArg (fun t : String × Nat × ℚ => t.2.1) heq
              have e3 : p.2 + q'.2 = w :=
                congrArg (fun t : String × Nat × ℚ => t.2.2) heq
              refine ⟨p0, by rw [e1]; exact hV0, ?_⟩
              rw [← e2, ← e3] at hle0
              exact hle0
            · exact Or.inl h2
          · exact Or.inr hcov
        | true =>
          rw [if_pos rfl]
          have hns : n ≠ s := by
            intro hc
            have hstrict := improves_true himp
              (show dlookup V n = some (0, 0) by rw [hc]; exact hC)
            have hpos1 : 1 ≤ h := hPos (n, h, w) (by simp)
            rcases hstrict with h1 | ⟨h1, _⟩
            · have h1' : h < 0 := h1
              omega
            · have h1' : h = 0 := h1
              omega
          have hB' : ∀ m p, dlookup (dset n (h, w) V) m = some p →
              ReachW g s m p.1 p.2 ∧ p.1 ≤ depth := by
            intro m p hV'
            by_cases hm : m = n
            · rw [hm, dlookup_dset_self] at hV'
              have hp : (h, w) = p := Option.some_inj.mp hV'
              rw [hm, ← hp]
              exact ⟨hre, hh⟩
            · rw [dlookup_dset_ne hm] at hV'
              exact hB m p hV'
          have hC' : dlookup (dset n (h, w) V) s = some (0, 0) := by
            rw [dlookup_dset_ne (fun hc => hns hc.symm)]
            exact hC
          have hSync' : ∀ m, dlookup (dset n (scoreOf h w) S) m
              = Option.map (fun p : Nat × ℚ => scoreOf p.1 p.2)
                  (dlookup (dset n (h, w) V) m) := by
            intro m
            by_cases hm : m = n
            · rw [hm, dlookup_dset_self, dlookup_dset_self]
              rfl
            · rw [dlookup_dset_ne hm, dlookup_dset_ne hm]
              exact hSync m
          have hcover : ∀ (m : String) (p : Nat × ℚ) (q' : String × ℚ),
              (∃ p', dlookup V q'.1 = some p' ∧
                pairLE p' (p.1 + 1, p.2 + q'.2)) →
              (∃ p', dlookup (dset n (h, w) V) q'.1 = some p' ∧
                pairLE p' (p.1 + 1, p.2 + q'.2)) := by
            intro m p q' hcov0
            obtain ⟨p', hVv, hle2⟩ := hcov0
            by_cases hv : q'.1 = n
            · refine ⟨(h, w), by rw [hv, dlookup_dset_self], ?_⟩
              have hstrict := improves_true himp
                (show dlookup V n = some p' by rw [← hv]; exact hVv)
              exact pairLE_trans (pairLE_of_strict hstrict) hle2
            · exact ⟨p', by rw [dlookup_dset_ne hv]; exact hVv, hle2⟩
          by_cases hexp : h < depth
          · rw [if_pos hexp]
            refine ih (rest ++ (incPairs g n).map (fun p => (p.1, h + 1, w + p.2)))
              (dset n (h, w) V) (dset n (scoreOf h w) S) ?_ ?_ hB' hC' hSync' ?_ ?_
            · intro e' he'
              rcases List.mem_append.mp he' with h1 | h1
              · exact hA e' (by simp [h1])
              · obtain ⟨q', hq', rfl⟩ := List.mem_map.mp h1
                exact ReachW.snoc hre hq'
            · intro e' he'
              rcases List.mem_append.mp he' with h1 | h1
              · exact hPos e' (by simp [h1])
              · obtain ⟨q', hq', rfl⟩ := List.mem_map.mp h1
                exact Nat.le_add_left 1 h
            · intro m p hV' hplt q' hq'
              by_cases hm : m = n
              · rw [hm, dlookup_dset_self] at hV'
                have hp : (h, w) = p := Option.some_inj.mp hV'
                rw [hm] at hq'
                left
                rw [← hp]
                exact List.mem_append_right _ (List.mem_map.mpr ⟨q', hq', rfl⟩)
              · rw [dlookup_dset_ne hm] at hV'
                rcases hF m p hV' hplt q' hq' with hmem | hcov
                · rcases List.mem_cons.mp hmem with heq | h2
                  · right
                    have e1 : q'.1 = n :=
                      congrArg (fun t : String × Nat × ℚ => t.1) heq
                    have e2 : p.1 + 1 = h :=
                      congrArg (fun t : String × Nat × ℚ => t.2.1) heq
                    have e3 : p.2 + q'.2 = w :=
                      congrArg (fun t : String × Nat × ℚ => t.2.2) heq
                    refine ⟨(h, w), by rw [e1, dlookup_dset_self], ?_⟩
                    rw [← e2, ← e3]
                    exact pairLE_refl _
                  · exact Or.inl (List.mem_append_left _ h2)
                · exact Or.inr (hcover m p q' hcov)
            · have hall : ∀ x ∈ ((incPairs g n).map
                  (fun p => (p.1, h + 1, w + p.2))).map (fun e => e.2.1),
                  x = h + 1 := by
                intro x hx
                obtain ⟨a, ha, rfl⟩ := List.mem_map.mp hx
                obtain ⟨q', hq', rfl⟩ := List.mem_map.mp ha
                rfl
              have hlen : (((incPairs g n).map
                  (fun p => (p.1, h + 1, w + p.2))).map
                    (fun e => e.2.1)).length < 2 * g.edges.length + 1 := by
                rw [List.length_map, List.length_map]
                have h2 := incPairs_length_le g n
                omega
              rw [List.map_append]
              have hlt := qMeasure_expand_lt hB1 hexp hall hlen
                (rest.map (fun e => e.2.1))
              have hcons : qMeasure (2 * g.edges.length + 1) depth
                  (h :: rest.map (fun e => e.2.1)) ≤ fuel + 1 := hfuel
              omega
          · rw [if_neg hexp]
            refine ih rest (dset n (h, w) V) (dset n (scoreOf h w) S)
              (fun e' he' => hA e' (by simp [he']))
              (fun e' he' => hPos e' (by simp [he'])) hB' hC' hSync' ?_ hfl0
            intro m p hV' hplt q' hq'
            by_cases hm : m = n
            · exfalso
              rw [hm, dlookup_dset_self] at hV'
              have hp : (h, w) = p := Option.some_inj.mp hV'
              have hp1 : p.1 = h := by rw [← hp]
              omega
            · rw [dlookup_dset_ne hm] at hV'
              rcases hF m p hV' hplt q' hq' with hmem | hcov
              · rcases List.mem_cons.mp hmem with heq | h2
                · right
                  have e1 : q'.1 = n :=
                    congrArg (fun t : String × Nat × ℚ => t.1) heq
                  have e2 : p.1 + 1 = h :=
                    congrArg (fun t : String × Nat × ℚ => t.2.1) heq
                  have e3 : p.2 + q'.2 = w :=
                    congrArg (fun t : String × Nat × ℚ => t.2.2) heq
                  refine ⟨(h, w), by rw [e1, dlookup_dset_self], ?_⟩
                  rw [← e2, ← e3]
                  exact pairLE_refl _
                · exact Or.inl h2
              · exact Or.inr (hcover m p q' hcov)

/-- `compute_graph_scores` satisfies `WScoresSpec` for a present start
node. -/
theorem compute_graph_scores_spec (g : GDB) (start : String)
    (hstart : start ∈ nodeIds g) (depth : Nat) :
    WScoresSpec g start depth (compute_graph_scores g start depth) := by
  unfold compute_graph_scores
  rw [if_pos hstart]
  obtain ⟨f, hf⟩ : ∃ f, (2 * g.edges.length + 1) ^ (depth + 1) = f + 1 := by
    have h0 : 0 < (2 * g.edges.length + 1) ^ (depth + 1) :=
      Nat.pos_pow_of_pos _ (by omega)
    exact ⟨(2 * g.edges.length + 1) ^ (depth + 1) - 1, by omega⟩
  rw [hf, bfsScores]
  rw [if_neg (Nat.not_lt_zero depth)]
  rw [if_pos (show improves [] start 0 0 = true from rfl)]
  have hVB : ∀ n p, dlookup (dset start ((0 : Nat), (0 : ℚ)) []) n = some p →
      ReachW g start n p.1 p.2 ∧ p.1 ≤ depth := by
    intro n p hV
    by_cases hn : n = start
    · rw [hn, dlookup_dset_self] at hV
      have hp : ((0 : Nat), (0 : ℚ)) = p := Option.some_inj.mp hV
      rw [hn, ← hp]
      exact ⟨ReachW.refl, Nat.zero_le depth⟩
    · rw [dlookup_dset_ne hn] at hV
      exact absurd hV (by simp [dlookup])
  have hVC : dlookup (dset start ((0 : Nat), (0 : ℚ)) []) start = some (0, 0) :=
    dlookup_dset_self _ _ _
  have hVSync : ∀ n, dlookup (dset start (scoreOf 0 0) []) n
      = Option.map (fun p : Nat × ℚ => scoreOf p.1 p.2)
          (dlookup (dset start ((0 : Nat), (0 : ℚ)) []) n) := by
    intro n
    by_cases hn : n = start
    · rw [hn, dlookup_dset_self, dlookup_dset_self]
      rfl
    · rw [dlookup_dset_ne hn, dlookup_dset_ne hn]
      rfl
  by_cases hd : 0 < depth
  · rw [if_pos hd]
    refine bfsScores_correct g start depth f _ _ _ ?_ ?_ hVB hVC hVSync ?_ ?_
    · intro e' he'
      simp only [List.nil_append] at he'
      obtain ⟨q', hq', rfl⟩ := List.mem_map.mp he'
      exact ReachW.snoc ReachW.refl hq'
    · intro e' he'
      simp only [List.nil_append] at he'
      obtain ⟨q', hq', rfl⟩ := List.mem_map.mp he'
      exact Nat.le_refl 1
    · intro m p hV hplt q' hq'
      have hm : m = start ∧ p = (0, 0) := by
        by_cases hn : m = start
        · rw [hn, dlookup_dset_self] at hV
          exact ⟨hn, (Option.some_inj.mp hV).symm⟩
        · rw [dlookup_dset_ne hn] at hV
          exact absurd hV (by simp [dlookup])
      left
      rw [hm.1] at hq'
      rw [hm.2]
      simp only [List.nil_append]
      exact List.mem_map.mpr ⟨q', hq', rfl⟩
    · have hall : ∀ x ∈ ((incPairs g start).map
          (fun p => (p.1, 0 + 1, 0 + p.2))).map (fun e => e.2.1),
          x = 0 + 1 := by
        intro x hx
        obtain ⟨a, ha, rfl⟩ := List.mem_map.mp hx
        obtain ⟨q', hq', rfl⟩ := List.mem_map.mp ha
        rfl
      have hlen : (((incPairs g start).map
          (fun p => (p.1, 0 + 1, 0 + p.2))).map (fun e => e.2.1)).length
          < 2 * g.edges.length + 1 := by
        rw [List.length_map, List.length_map]
        have h2 := incPairs_length_le g start
        omega
      have hlt := qMeasure_expand_lt
        (show 1 ≤ 2 * g.edges.length + 1 by omega) hd hall hlen ([] : List Nat)
      have hq0 : qMeasure (2 * g.edges.length + 1) depth [0]
          = (2 * g.edges.length + 1) ^ (depth + 1) := by
        rw [qMeasure_cons, qMeasure_nil]
        norm_num
      simp only [List.nil_append] at hlt ⊢
      omega
  · rw [if_neg hd]
    refine bfsScores_correct g start depth f [] _ _ ?_ ?_ hVB hVC hVSync ?_ ?_
    · intro e' he'
      exact absurd he' (by simp)
    · intro e' he'
      exact absurd he' (by simp)
    · intro m p hV hplt q' hq'
      exfalso
      have hm : p = (0, 0) := by
        by_cases hn : m = start
        · rw [hn, dlookup_dset_self] at hV
          exact (Option.some_inj.mp hV).symm
        · rw [dlookup_dset_ne hn] at hV
          exact absurd hV (by simp [dlookup])
      rw [hm] at hplt
      have hplt' : (0 : Nat) < depth := hplt
      omega
    · show qMeasure (2 * g.edges.length + 1) depth
        (([] : List (String × Nat × ℚ)).map (fun e => e.2.1)) ≤ f
      simp [qMeasure]

/-- Claim C3: with non-negative edge weights and a present start node,
`compute_graph_scores` maps the start node to the infinite sentinel, maps
every other scored node to `w / h` for its best pair `(h, w)` — fewer hops
win, ties go to the larger accumulated weight — a finite, non-negative
value, and scores no node whose best hop distance exceeds `depth`. -/
theorem claim3_compute_scores (g : GDB) (hw : ∀ e ∈ g.edges, 0 ≤ e.weight)
    (start : String) (hstart : start ∈ nodeIds g) (depth : Nat) :
    dlookup (compute_graph_scores g start depth) start = some Sc.inf ∧
    (∀ n x, n ≠ start →
      dlookup (compute_graph_scores g start depth) n = some x →
      ∃ h w, ReachW g start n h w ∧ 1 ≤ h ∧ h ≤ depth ∧
        (∀ k w', ReachW g start n k w' → h < k ∨ (h = k ∧ w' ≤ w)) ∧
        x = Sc.fin (w / (h : ℚ)) ∧ 0 ≤ w / (h : ℚ)) ∧
    (∀ n, (∀ k w', ReachW g start n k w' → depth < k) →
      dlookup (compute_graph_scores g start depth) n = none) := by
  have hspec := compute_graph_scores_spec g start hstart depth
  refine ⟨?_, ?_, ?_⟩
  · obtain ⟨x, hx⟩ := (hspec start).2 ⟨0, 0, Nat.zero_le depth, ReachW.refl⟩
    obtain ⟨p, hre, hdep, hopt, hxe⟩ := (hspec start).1 x hx
    have h0 : p.1 < (0 : Nat) ∨ (p.1 = 0 ∧ (0 : ℚ) ≤ p.2) :=
      hopt 0 0 ReachW.refl
    have hp1 : p.1 = 0 := by
      rcases h0 with h0 | ⟨hp1, _⟩
      · omega
      · exact hp1
    rw [hp1] at hre
    have hp2 : p.2 = 0 := (reachW_zero hre).2
    rw [hx, hxe, hp1, hp2]
    rfl
  · intro n x hn hx
    obtain ⟨p, hre, hdep, hopt, hxe⟩ := (hspec n).1 x hx
    have hp1 : 1 ≤ p.1 := by
      by_contra hcon
      have hp0 : p.1 = 0 := by omega
      rw [hp0] at hre
      exact hn (reachW_zero hre).1
    refine ⟨p.1, p.2, hre, hp1, hdep, ?_, ?_, ?_⟩
    · intro k w' hwlk
      exact hopt k w' hwlk
    · rw [hxe]
      unfold scoreOf
      rw [if_neg (by omega : ¬ p.1 = 0)]
    · exact div_nonneg (reachW_nonneg hw hre) (Nat.cast_nonneg p.1)
  · intro n hfar
    cases hx : dlookup (compute_graph_scores g start depth) n with
    | none => rfl
    | some x =>
      obtain ⟨p, hre, hdep, _, _⟩ := (hspec n).1 x hx
      have hcon := hfar p.1 p.2 hre
      omega

/-- Claim C3 witness: the scoring characterization on the `A → B` graph at
depth 1. -/
theorem claim3_wit :
    ((∀ e ∈ scenario5Graph.edges, 0 ≤ e.weight) ∧
      "A" ∈ nodeIds scenario5Graph) ∧
    (dlookup (compute_graph_scores scenario5Graph "A" 1) "A" = some Sc.inf ∧
      (∀ n x, n ≠ "A" →
        dlookup (compute_graph_scores scenario5Graph "A" 1) n = some x →
        ∃ h w, ReachW scenario5Graph "A" n h w ∧ 1 ≤ h ∧ h ≤ 1 ∧
          (∀ k w', ReachW scenario5Graph "A" n k w' →
            h < k ∨ (h = k ∧ w' ≤ w)) ∧
          x = Sc.fin (w / (h : ℚ)) ∧ 0 ≤ w / (h : ℚ)) ∧
      (∀ n, (∀ k w', ReachW scenario5Graph "A" n k w' → 1 < k) →
        dlookup (compute_graph_scores scenario5Graph "A" 1) n = none)) :=
  ⟨⟨by
      intro e he
      have he' : e ∈ [(⟨"A", "B", 0, "e1", "rel", 1⟩ : EdgeRec)] := he
      simp only [List.mem_singleton] at he'
      rw [he']
      exact zero_le_one,
    by decide⟩,
   claim3_compute_scores scenario5Graph
     (by
       intro e he
       have he' : e ∈ [(⟨"A", "B", 0, "e1", "rel", 1⟩ : EdgeRec)] := he
       simp only [List.mem_singleton] at he'
       rw [he']
       exact zero_le_one)
     "A" (by decide) 1⟩

/-- Claim C1 counterexample graph: a single node `a` with text `old`. -/
def claim1Graph : GDB := ⟨[("a", ⟨some "old", some [], none⟩)], [], []⟩

/-- Claim C1 is false on `GraphDatabase.create_node` (`graph_db/graph_db.py`):
called with the caller-supplied id `a` that already exists, it does not fail
with a duplicate-id error — it succeeds and overwrites the node's attributes,
so the graph does not stay unchanged. -/
theorem claim1_cex :
    (create_node claim1Graph "657913cd" "new" none none (some "a")).2 ≠ claim1Graph ∧
    dlookup (create_node claim1Graph "657913cd" "new" none none (some "a")).2.nodes "a"
      = some ⟨some "new", some [], none⟩ ∧
    dlookup claim1Graph.nodes "a" = some ⟨some "old", some [], none⟩ := by
  refine ⟨by decide, by decide, by decide⟩

/-- Claim C1 (amended): `GraphDatabase.create_node` rejects nothing.  With an
existing caller-supplied id it succeeds and overwrites that node's
text/metadata/embedding, leaving the node-id set and the edges unchanged;
with no caller id it uses the generated uuid and, when that uuid is fresh,
appends a new node.  Only the `GraphDB` variant of `graph.py` fails on a
duplicate id, raising `DuplicateNodeError`. -/
theorem claim1_corrected :
    (∀ g gen text md emb nid, nid ∈ nodeIds g → nid ≠ "" →
      (create_node g gen text md emb (some nid)).1.id = nid ∧
      nodeIds (create_node g gen text md emb (some nid)).2 = nodeIds g ∧
      dlookup (create_node g gen text md emb (some nid)).2.nodes nid
        = some ⟨some text, some (md.getD []), emb⟩ ∧
      (∀ m, m ≠ nid →
        dlookup (create_node g gen text md emb (some nid)).2.nodes m = dlookup g.nodes m) ∧
      (create_node g gen text md emb (some nid)).2.edges = g.edges) ∧
    (∀ g gen text md emb, gen ∉ nodeIds g →
      (create_node g gen text md emb none).1.id = gen ∧
      dlookup (create_node g gen text md emb none).2.nodes gen
        = some ⟨some text, some (md.getD []), emb⟩ ∧
      (∀ m, m ≠ gen →
        dlookup (create_node g gen text md emb none).2.nodes m = dlookup g.nodes m) ∧
      nodeIds (create_node g gen text md emb none).2 = nodeIds g ++ [gen]) ∧
    (∀ G nid label props, nid ∈ gpyNodeIds G →
      gpyCreateNode G nid label props = .error .duplicateNode) := by
  refine ⟨?_, ?_, ?_⟩
  · intro g gen text md emb nid hmem hne
    have hid : (create_node g gen text md emb (some nid)).1.id = nid := by
      simp [create_node, mkGraphNode, hne]
    have hnodes : (create_node g gen text md emb (some nid)).2.nodes
        = dset nid ⟨some text, some (md.getD []), emb⟩ g.nodes := by
      simp [create_node, mkGraphNode, addNode, hne]
    refine ⟨hid, ?_, ?_, ?_, rfl⟩
    · simp only [nodeIds]
      rw [hnodes]
      exact dkeys_dset_of_mem hmem _
    · rw [hnodes]
      exact dlookup_dset_self _ _ _
    · intro m hm
      rw [hnodes]
      exact dlookup_dset_ne hm _ _
  · intro g gen text md emb hfresh
    have hid : (create_node g gen text md emb none).1.id = gen := rfl
    have hnodes : (create_node g gen text md emb none).2.nodes
        = dset gen ⟨some text, some (md.getD []), emb⟩ g.nodes := rfl
    refine ⟨hid, ?_, ?_, ?_⟩
    · rw [hnodes]
      exact dlookup_dset_self _ _ _
    · intro m hm
      rw [hnodes]
      exact dlookup_dset_ne hm _ _
    · simp only [nodeIds]
      rw [hnodes]
      exact dkeys_dset_of_not_mem hfresh _
  · intro G nid label props hmem
    simp [gpyCreateNode, hmem]

/-- Witness for the amended C1 theorem at concrete inputs. -/
theorem claim1_wit :
    (("a" ∈ nodeIds claim1Graph) ∧ ("a" : String) ≠ "" ∧
      nodeIds (create_node claim1Graph "9f2c" "new" none none (some "a")).2
        = nodeIds claim1Graph) ∧
    (("9f2c" ∉ nodeIds claim1Graph) ∧
      nodeIds (create_node claim1Graph "9f2c" "t" none none none).2
        = nodeIds claim1Graph ++ ["9f2c"]) ∧
    gpyCreateNode ⟨[⟨"a", []⟩], []⟩ "a" "L" [] = .error .duplicateNode := by
  refine ⟨⟨by decide, by decide, ?_⟩, ⟨by decide, ?_⟩, ?_⟩
  · exact (claim1_corrected.1 claim1Graph "9f2c" "new" none none "a"
      (by decide) (by decide)).2.1
  · exact (claim1_corrected.2.1 claim1Graph "9f2c" "t" none none (by decide)).2.2.2
  · exact claim1_corrected.2.2 ⟨[⟨"a", []⟩], []⟩ "a" "L" [] (by decide)

end DevForge
